import Mathlib

/-!
Verification development for the STREAM risk engine.

Shallow embedding of the scoring code:
  - ml_model.py        (batch pipeline: engineer_features, compute_rule_flags,
                        compute_risk_score)
  - risk_engine.py     (single-submission path: compute_rule_flags)
  - vendor_risk_scorer.py (compute_political_scores)
  - company_risk_scorer.py (score_companies: address clustering and edges)
  - entity_resolution.py  (normalise_name, tokenise, jaccard_similarity,
                        build_inverted_index, find_matches)

Numeric values are modelled with rationals; Python round(x, 2) is modelled as
exact round-half-to-even at two decimals; Python float modulo with a positive
modulus is a - b * floor(a / b).  Strings are modelled as lists of characters.
-/

namespace STREAM

/-- Clip a rational into the interval from lo to hi (numpy/pandas clip). -/
def clip (x lo hi : ℚ) : ℚ := min (max x lo) hi

/-- Round half to even to the nearest integer (Python builtin round). -/
def pyRound (x : ℚ) : ℤ :=
  if x - ⌊x⌋ < 1/2 then ⌊x⌋
  else if 1/2 < x - ⌊x⌋ then ⌊x⌋ + 1
  else if ⌊x⌋ % 2 = 0 then ⌊x⌋ else ⌊x⌋ + 1

/-- Round to two decimal places (Python round(x, 2), pandas .round(2)). -/
def round2 (x : ℚ) : ℚ := (pyRound (x * 100) : ℚ) / 100

/-- Python modulo on rationals for a positive modulus: a % b = a - b*floor(a/b). -/
def pyMod (a b : ℚ) : ℚ := a - b * (⌊a / b⌋ : ℚ)

/-! ## Rule flags and blended risk score -/

/-- The seven rule flags attached to a tender record. -/
structure Flags where
  single_bidder : Bool
  zero_bidders : Bool
  short_window : Bool
  non_open : Bool
  high_value : Bool
  buyer_concentration : Bool
  round_amount : Bool
deriving DecidableEq

def b2q (b : Bool) : ℚ := if b then 1 else 0

/-- Weighted sum over the seven rule flags with the weights 25, 20, 15, 10,
10, 10, 5 shared by FLAG_WEIGHTS in risk_engine.py and the first seven
entries of FLAG_WEIGHTS in ml_model.py. -/
def ruleWeightedSum (f : Flags) : ℚ :=
  25 * b2q f.single_bidder + 20 * b2q f.zero_bidders + 15 * b2q f.short_window +
    10 * b2q f.non_open + 10 * b2q f.high_value + 10 * b2q f.buyer_concentration +
    5 * b2q f.round_amount

/-- sum(FLAG_WEIGHTS.values()) in risk_engine.py: the seven rule weights. -/
def maxWeightSingle : ℚ := 25 + 20 + 15 + 10 + 10 + 10 + 5

/-- sum(FLAG_WEIGHTS.values()) in ml_model.py: the seven rule weights plus the
ml_anomaly_flag weight 15. -/
def maxRuleBatch : ℚ := 25 + 20 + 15 + 10 + 10 + 10 + 5 + 15

/-- rule_score in ml_model.compute_risk_score: the sum over all eight entries
of FLAG_WEIGHTS, including ml_anomaly_flag with weight 15. -/
def batchWeightedSum (f : Flags) (ml : Bool) : ℚ := ruleWeightedSum f + 15 * b2q ml

/-- ml_model.compute_risk_score: ((rule_score / max_rule) * 85 +
anomaly_score * 15).clip(0, 100).round(2). -/
def batchRiskScore (f : Flags) (ml : Bool) (anomaly : ℚ) : ℚ :=
  round2 (clip (batchWeightedSum f ml / maxRuleBatch * 85 + anomaly * 15) 0 100)

inductive Tier where
  | low
  | medium
  | high
deriving DecidableEq

/-- pd.cut(score, bins=[0, 30, 60, 100], include_lowest=True) in
ml_model.compute_risk_score: right-closed intervals, none outside (so the
first bucket is the closed interval from 0 to 30). -/
def batchRiskTier (x : ℚ) : Option Tier :=
  if 0 ≤ x ∧ x ≤ 30 then some Tier.low
  else if 30 < x ∧ x ≤ 60 then some Tier.medium
  else if 60 < x ∧ x ≤ 100 then some Tier.high
  else none

/-- risk_engine.compute_rule_flags: round((weighted_sum / max_weight) * 85, 2)
with max_weight = 95; there is no anomaly term and no clip on this path. -/
def singleRiskScore (f : Flags) : ℚ := round2 (ruleWeightedSum f / maxWeightSingle * 85)

/-- risk_engine.compute_rule_flags tiering: >= 60 High, >= 30 Medium, else Low. -/
def singleRiskTier (x : ℚ) : Tier :=
  if 60 ≤ x then Tier.high else if 30 ≤ x then Tier.medium else Tier.low

/-- Modelled from the spec: risk_score = clip((weighted_sum / max_weight) * 85
+ anomalyProbability * 15, 0, 100) rounded to 2 decimal places, with
max_weight = 95 the sum of the seven rule weights.  Kept for a refinement
comparison against the code's two paths. -/
def specBlendScore (f : Flags) (anomaly : ℚ) : ℚ :=
  round2 (clip (ruleWeightedSum f / 95 * 85 + anomaly * 15) 0 100)

def allFlagsOn : Flags := ⟨true, true, true, true, true, true, true⟩

/-! ## Per-flag conditions (batch and single-submission paths) -/

/-- ml_model.engineer_features amount cleanup: to_numeric with coercion (a
non-numeric cell becomes none), then fillna(median), then replace(0, median). -/
def fillAmount (raw : Option ℚ) (median : ℚ) : ℚ :=
  match raw with
  | none => median
  | some v => if v = 0 then median else v

/-- ml_model.compute_rule_flags flag 7: (amount % 100000 == 0).astype(int),
on the engineered amount. -/
def flagRoundAmountBatch (raw : Option ℚ) (median : ℚ) : ℕ :=
  if pyMod (fillAmount raw median) 100000 = 0 then 1 else 0

/-- risk_engine.compute_rule_flags: 1 if amount % 100000 == 0 else 0. -/
def flagRoundAmountSingle (amount : ℚ) : ℕ :=
  if pyMod amount 100000 = 0 then 1 else 0

/-- ml_model.engineer_features duration cleanup: to_numeric then fillna(0). -/
def fillDuration (raw : Option ℚ) : ℚ := raw.getD 0

/-- ml_model.compute_rule_flags flag 3: (duration > 0) and (duration < 7). -/
def flagShortWindowBatch (raw : Option ℚ) : ℕ :=
  if 0 < fillDuration raw ∧ fillDuration raw < 7 then 1 else 0

/-- risk_engine.compute_rule_flags: 1 if duration_days < 7 else 0. -/
def flagShortWindowSingle (d : ℚ) : ℕ := if d < 7 then 1 else 0

/-- ASCII lower-casing of one character (Python str.lower on the relevant
alphabet). -/
def pyLowerChar (c : Char) : Char :=
  if 65 ≤ c.toNat ∧ c.toNat ≤ 90 then Char.ofNat (c.toNat + 32) else c

/-- Python str.lower over a string modelled as a character list. -/
def pyLower (s : List Char) : List Char := s.map pyLowerChar

def openTenderChars : List Char := ['O', 'p', 'e', 'n', ' ', 'T', 'e', 'n', 'd', 'e', 'r']

def openTenderLowerChars : List Char := ['o', 'p', 'e', 'n', ' ', 't', 'e', 'n', 'd', 'e', 'r']

def openLowerChars : List Char := ['o', 'p', 'e', 'n']

/-- ml_model.compute_rule_flags flag 4: (~df[method].isin(['Open Tender'])),
an exact, case-sensitive comparison against the single string 'Open Tender'. -/
def flagNonOpenBatch (m : List Char) : ℕ := if m = openTenderChars then 0 else 1

/-- risk_engine.compute_rule_flags: 1 if method.lower() not in
('open tender', 'open') else 0. -/
def flagNonOpenSingle (m : List Char) : ℕ :=
  if pyLower m = openTenderLowerChars ∨ pyLower m = openLowerChars then 0 else 1

/-- risk_engine.compute_rule_flags high-value threshold: p95_val =
float(row) if row and row value truthy else 1e12.  none models an absent row
or SQL NULL (an empty category); a stored 0.0 is falsy in Python and also
falls back to the sentinel. -/
def p95Sentinel (r : Option ℚ) : ℚ :=
  match r with
  | none => 10 ^ 12
  | some v => if v = 0 then 10 ^ 12 else v

/-- risk_engine.compute_rule_flags: 1 if amount > p95_val else 0. -/
def flagHighValueSingle (amount : ℚ) (r : Option ℚ) : ℕ :=
  if p95Sentinel r < amount then 1 else 0

/-! ## Helper lemmas on rounding, clipping and flag sums -/

theorem pyRound_le {x : ℚ} {N : ℤ} (h : x ≤ (N : ℚ)) : pyRound x ≤ N := by
  unfold pyRound
  have hfl : ⌊x⌋ ≤ N := by
    have h2 := Int.floor_mono h
    rwa [Int.floor_intCast] at h2
  split_ifs with h1 h2 h3
  · exact hfl
  · have hx : (⌊x⌋ : ℚ) + 1/2 ≤ x := by linarith
    have : (⌊x⌋ : ℚ) < N := by
      have := Int.floor_le x
      linarith
    have : ⌊x⌋ < N := by exact_mod_cast this
    omega
  · exact hfl
  · have hx : (⌊x⌋ : ℚ) + 1/2 ≤ x := by linarith
    have : (⌊x⌋ : ℚ) < N := by linarith
    have : ⌊x⌋ < N := by exact_mod_cast this
    omega

theorem le_pyRound {x : ℚ} {N : ℤ} (h : (N : ℚ) ≤ x) : N ≤ pyRound x := by
  unfold pyRound
  have hfl : N ≤ ⌊x⌋ := Int.le_floor.mpr h
  split_ifs <;> omega

theorem round2_bounds (nlo nhi : ℤ) {x lo hi : ℚ}
    (hlo : lo = (nlo : ℚ) / 100) (hhi : hi = (nhi : ℚ) / 100)
    (h1 : lo ≤ x) (h2 : x ≤ hi) : lo ≤ round2 x ∧ round2 x ≤ hi := by
  subst hlo hhi
  have hl : (nlo : ℚ) ≤ x * 100 := by nlinarith
  have hh : x * 100 ≤ (nhi : ℚ) := by nlinarith
  have hL := le_pyRound hl
  have hH := pyRound_le hh
  constructor
  · rw [round2]
    have : (nlo : ℚ) ≤ (pyRound (x * 100) : ℚ) := by exact_mod_cast hL
    linarith
  · rw [round2]
    have : (pyRound (x * 100) : ℚ) ≤ (nhi : ℚ) := by exact_mod_cast hH
    linarith

theorem clip_bounds {x lo hi : ℚ} (h : lo ≤ hi) : lo ≤ clip x lo hi ∧ clip x lo hi ≤ hi := by
  unfold clip
  constructor
  · exact le_min (le_max_right x lo) h
  · exact min_le_right _ _

theorem clip_eq_of_mem {x lo hi : ℚ} (h1 : lo ≤ x) (h2 : x ≤ hi) : clip x lo hi = x := by
  unfold clip
  rw [max_eq_left h1, min_eq_left h2]

theorem round2_eval_down {x : ℚ} {z : ℤ} (h1 : (z : ℚ) ≤ x * 100)
    (h2 : x * 100 < (z : ℚ) + 1/2) : round2 x = (z : ℚ) / 100 := by
  have hf : ⌊x * 100⌋ = z := Int.floor_eq_iff.mpr ⟨h1, by linarith⟩
  unfold round2 pyRound
  rw [hf, if_pos (by linarith)]

theorem round2_eval_up {x : ℚ} {z : ℤ} (h1 : (z : ℚ) + 1/2 < x * 100)
    (h2 : x * 100 < (z : ℚ) + 1) : round2 x = ((z : ℚ) + 1) / 100 := by
  have hf : ⌊x * 100⌋ = z := Int.floor_eq_iff.mpr ⟨by linarith, by linarith⟩
  unfold round2 pyRound
  rw [hf, if_neg (by linarith), if_pos (by linarith)]
  push_cast
  ring

theorem b2q_nonneg (b : Bool) : 0 ≤ b2q b := by cases b <;> simp [b2q]

theorem b2q_le_one (b : Bool) : b2q b ≤ 1 := by cases b <;> simp [b2q]

theorem ruleWeightedSum_nonneg (f : Flags) : 0 ≤ ruleWeightedSum f := by
  unfold ruleWeightedSum
  have h1 := b2q_nonneg f.single_bidder
  have h2 := b2q_nonneg f.zero_bidders
  have h3 := b2q_nonneg f.short_window
  have h4 := b2q_nonneg f.non_open
  have h5 := b2q_nonneg f.high_value
  have h6 := b2q_nonneg f.buyer_concentration
  have h7 := b2q_nonneg f.round_amount
  linarith

theorem ruleWeightedSum_le (f : Flags) : ruleWeightedSum f ≤ 95 := by
  unfold ruleWeightedSum
  have h1 := b2q_le_one f.single_bidder
  have h2 := b2q_le_one f.zero_bidders
  have h3 := b2q_le_one f.short_window
  have h4 := b2q_le_one f.non_open
  have h5 := b2q_le_one f.high_value
  have h6 := b2q_le_one f.buyer_concentration
  have h7 := b2q_le_one f.round_amount
  linarith

theorem batchRiskScore_mem (f : Flags) (ml : Bool) (a : ℚ) :
    0 ≤ batchRiskScore f ml a ∧ batchRiskScore f ml a ≤ 100 := by
  unfold batchRiskScore
  have hc : 0 ≤ clip (batchWeightedSum f ml / maxRuleBatch * 85 + a * 15) 0 100
      ∧ clip (batchWeightedSum f ml / maxRuleBatch * 85 + a * 15) 0 100 ≤ 100 :=
    clip_bounds (by norm_num)
  exact round2_bounds 0 10000 (by norm_num) (by norm_num) hc.1 hc.2

theorem singleRuleTerm_mem (f : Flags) :
    0 ≤ ruleWeightedSum f / 95 * 85 ∧ ruleWeightedSum f / 95 * 85 ≤ 85 := by
  have h1 := ruleWeightedSum_nonneg f
  have h2 := ruleWeightedSum_le f
  constructor <;> nlinarith

theorem singleRiskScore_mem (f : Flags) :
    0 ≤ singleRiskScore f ∧ singleRiskScore f ≤ 100 := by
  unfold singleRiskScore maxWeightSingle
  have h := singleRuleTerm_mem f
  norm_num
  exact round2_bounds 0 10000 (by norm_num) (by norm_num) h.1
    (h.2.trans (by norm_num))

theorem batchRiskTier_spec {x : ℚ} (h0 : 0 ≤ x) (h100 : x ≤ 100) :
    (batchRiskTier x = some Tier.low ↔ x ≤ 30)
    ∧ (batchRiskTier x = some Tier.medium ↔ 30 < x ∧ x ≤ 60)
    ∧ (batchRiskTier x = some Tier.high ↔ 60 < x) := by
  by_cases hA : x ≤ 30
  · have hx : batchRiskTier x = some Tier.low := by
      unfold batchRiskTier
      rw [if_pos ⟨h0, hA⟩]
    rw [hx]
    refine ⟨by simp [hA], ⟨fun h => absurd h (by decide), ?_⟩,
      ⟨fun h => absurd h (by decide), fun h => absurd hA (by push_neg; linarith)⟩⟩
    rintro ⟨h, -⟩
    exact absurd hA (by push_neg; linarith)
  · have hx30 : 30 < x := lt_of_not_le hA
    by_cases hB : x ≤ 60
    · have hx : batchRiskTier x = some Tier.medium := by
        unfold batchRiskTier
        have c1 : ¬(0 ≤ x ∧ x ≤ 30) := by rintro ⟨-, h⟩; linarith
        rw [if_neg c1, if_pos ⟨hx30, hB⟩]
      rw [hx]
      exact ⟨⟨fun h => absurd h (by decide), fun h => absurd h hA⟩, by simp [hx30, hB],
        ⟨fun h => absurd h (by decide), fun h => absurd hB (by push_neg; linarith)⟩⟩
    · have hx60 : 60 < x := lt_of_not_le hB
      have hx : batchRiskTier x = some Tier.high := by
        unfold batchRiskTier
        have c1 : ¬(0 ≤ x ∧ x ≤ 30) := by rintro ⟨-, h⟩; linarith
        have c2 : ¬(30 < x ∧ x ≤ 60) := by rintro ⟨-, h⟩; linarith
        rw [if_neg c1, if_neg c2, if_pos ⟨hx60, h100⟩]
      rw [hx]
      exact ⟨⟨fun h => absurd h (by decide), fun h => absurd h (by push_neg; linarith)⟩,
        ⟨fun h => absurd h (by decide), fun h => absurd h.2 (by push_neg; linarith)⟩,
        by simp [hx60]⟩

theorem singleRiskTier_spec (x : ℚ) :
    (singleRiskTier x = Tier.high ↔ 60 ≤ x)
    ∧ (singleRiskTier x = Tier.medium ↔ 30 ≤ x ∧ x < 60)
    ∧ (singleRiskTier x = Tier.low ↔ x < 30) := by
  unfold singleRiskTier
  by_cases h60 : 60 ≤ x
  · rw [if_pos h60]
    exact ⟨by simp [h60], ⟨fun h => absurd h (by decide), fun h => absurd h60 (by push_neg; linarith [h.2])⟩,
      ⟨fun h => absurd h (by decide), fun h => absurd h60 (by push_neg; linarith)⟩⟩
  · rw [if_neg h60]
    by_cases h30 : 30 ≤ x
    · rw [if_pos h30]
      exact ⟨⟨fun h => absurd h (by decide), fun h => absurd h h60⟩,
        by simp [h30, lt_of_not_le h60], ⟨fun h => absurd h (by decide),
          fun h => absurd h30 (by push_neg; linarith)⟩⟩
    · rw [if_neg h30]
      exact ⟨⟨fun h => absurd h (by decide), fun h => absurd h h60⟩,
        ⟨fun h => absurd h (by decide), fun h => absurd h.1 h30⟩,
        by simp [lt_of_not_le h30]⟩

/-! ## Claim C1 -/

/-- Claim C1 is falsified on the batch pipeline: with all seven rule flags
set, the ML flag off and a zero anomaly score, ml_model.compute_risk_score
yields 73.41 (the denominator is 110, the sum of all eight FLAG_WEIGHTS
entries, and not 95), while the spec's blend formula yields 85. -/
theorem c1_blend_counterexample :
    batchRiskScore allFlagsOn false 0 = 7341 / 100
    ∧ specBlendScore allFlagsOn 0 = 85
    ∧ batchRiskScore allFlagsOn false 0 ≠ specBlendScore allFlagsOn 0 := by
  have hb : batchRiskScore allFlagsOn false 0 = 7341 / 100 := by
    unfold batchRiskScore
    have hv : batchWeightedSum allFlagsOn false / maxRuleBatch * 85 + 0 * 15 = 1615/22 := by
      unfold batchWeightedSum ruleWeightedSum maxRuleBatch b2q allFlagsOn
      norm_num
    rw [hv, clip_eq_of_mem (by norm_num) (by norm_num),
      round2_eval_up (z := 7340) (by norm_num) (by norm_num)]
    norm_num
  have hs : specBlendScore allFlagsOn 0 = 85 := by
    unfold specBlendScore
    have hv : ruleWeightedSum allFlagsOn / 95 * 85 + 0 * 15 = 85 := by
      unfold ruleWeightedSum b2q allFlagsOn
      norm_num
    rw [hv, clip_eq_of_mem (by norm_num) (by norm_num),
      round2_eval_down (z := 8500) (by norm_num) (by norm_num)]
    norm_num
  exact ⟨hb, hs, by rw [hb, hs]; norm_num⟩

/-- Claim C1 as amended: the single-submission path
(risk_engine.compute_rule_flags) computes exactly the spec formula with
denominator 95 and no ML term (anomalyProbability = 0), and a record with all
seven rule flags set scores exactly 85 there; the batch pipeline
(ml_model.compute_risk_score), however, uses denominator 110 and includes the
ML anomaly flag with weight 15 inside the weighted sum. -/
theorem c1_blend_amended :
    (∀ f : Flags, singleRiskScore f = specBlendScore f 0)
    ∧ singleRiskScore allFlagsOn = 85
    ∧ (∀ (f : Flags) (ml : Bool) (a : ℚ),
        batchRiskScore f ml a =
          round2 (clip ((ruleWeightedSum f + 15 * b2q ml) / 110 * 85 + a * 15) 0 100)) := by
  have h85 : singleRiskScore allFlagsOn = 85 := by
    have hv : ruleWeightedSum allFlagsOn / maxWeightSingle * 85 = 85 := by
      unfold ruleWeightedSum maxWeightSingle b2q allFlagsOn
      norm_num
    unfold singleRiskScore
    rw [hv, round2_eval_down (z := 8500) (by norm_num) (by norm_num)]
    norm_num
  refine ⟨?_, h85, ?_⟩
  · intro f
    have h := singleRuleTerm_mem f
    unfold singleRiskScore specBlendScore maxWeightSingle
    norm_num
    rw [clip_eq_of_mem h.1 (h.2.trans (by norm_num))]
  · intro f ml a
    unfold batchRiskScore batchWeightedSum maxRuleBatch
    norm_num

/-! ## Claim C3 -/

/-- Claim C3 is falsified on the batch pipeline: the record with the
single_bidder and round_amount flags set, no ML flag, and anomaly score 5/11
receives risk score exactly 30, and pd.cut with bins [0, 30, 60, 100] puts 30
into the Low bucket, while the claim's table requires Medium for
30 <= score < 60. -/
theorem c3_tier_counterexample :
    batchRiskScore ⟨true, false, false, false, false, false, true⟩ false (5 / 11) = 30
    ∧ batchRiskTier 30 = some Tier.low
    ∧ some Tier.low ≠ some Tier.medium := by
  have hsc : batchRiskScore ⟨true, false, false, false, false, false, true⟩ false (5 / 11) = 30 := by
    unfold batchRiskScore
    have hv : batchWeightedSum ⟨true, false, false, false, false, false, true⟩ false /
        maxRuleBatch * 85 + 5 / 11 * 15 = 30 := by
      unfold batchWeightedSum ruleWeightedSum maxRuleBatch b2q
      norm_num
    rw [hv, clip_eq_of_mem (by norm_num) (by norm_num),
      round2_eval_down (z := 3000) (by norm_num) (by norm_num)]
    norm_num
  have ht : batchRiskTier 30 = some Tier.low := by
    unfold batchRiskTier
    rw [if_pos (by norm_num)]
  exact ⟨hsc, ht, by decide⟩

/-- Claim C3 as amended: risk scores lie in the interval from 0 to 100 on
both paths; the single-submission path tiers exactly as the claim's table
(score below 30 Low, 30 to below 60 Medium, 60 and above High), while the
batch pipeline's pd.cut buckets are right-closed: Low for score up to and
including 30, Medium above 30 up to and including 60, High above 60. -/
theorem c3_tier_amended :
    (∀ (f : Flags) (ml : Bool) (a : ℚ),
      0 ≤ batchRiskScore f ml a ∧ batchRiskScore f ml a ≤ 100
      ∧ (batchRiskTier (batchRiskScore f ml a) = some Tier.low ↔ batchRiskScore f ml a ≤ 30)
      ∧ (batchRiskTier (batchRiskScore f ml a) = some Tier.medium ↔
          30 < batchRiskScore f ml a ∧ batchRiskScore f ml a ≤ 60)
      ∧ (batchRiskTier (batchRiskScore f ml a) = some Tier.high ↔ 60 < batchRiskScore f ml a))
    ∧ (∀ f : Flags,
      0 ≤ singleRiskScore f ∧ singleRiskScore f ≤ 100
      ∧ (singleRiskTier (singleRiskScore f) = Tier.high ↔ 60 ≤ singleRiskScore f)
      ∧ (singleRiskTier (singleRiskScore f) = Tier.medium ↔
          30 ≤ singleRiskScore f ∧ singleRiskScore f < 60)
      ∧ (singleRiskTier (singleRiskScore f) = Tier.low ↔ singleRiskScore f < 30)) := by
  constructor
  · intro f ml a
    obtain ⟨h0, h100⟩ := batchRiskScore_mem f ml a
    obtain ⟨t1, t2, t3⟩ := batchRiskTier_spec h0 h100
    exact ⟨h0, h100, t1, t2, t3⟩
  · intro f
    obtain ⟨h0, h100⟩ := singleRiskScore_mem f
    obtain ⟨t1, t2, t3⟩ := singleRiskTier_spec (singleRiskScore f)
    exact ⟨h0, h100, t1, t2, t3⟩

/-! ## Claim C5 -/

/-- Claim C5 confirmed: on both the batch pipeline (on the engineered,
median-filled amount) and the single-submission path, the round_amount flag
fires exactly when the amount is congruent to 0 modulo 100000 — including
amount 0 — and that condition is equivalent to the amount being an integer
multiple of 100000. -/
theorem c5_round_amount_flag :
    (∀ a : ℚ, flagRoundAmountSingle a = 1 ↔ pyMod a 100000 = 0)
    ∧ flagRoundAmountSingle 0 = 1
    ∧ (∀ (raw : Option ℚ) (m : ℚ),
        flagRoundAmountBatch raw m = 1 ↔ pyMod (fillAmount raw m) 100000 = 0)
    ∧ (∀ a : ℚ, pyMod a 100000 = 0 ↔ ∃ k : ℤ, a = 100000 * k) := by
  have key : ∀ a : ℚ, pyMod a 100000 = 0 ↔ ∃ k : ℤ, a = 100000 * k := by
    intro a
    unfold pyMod
    constructor
    · intro h
      exact ⟨⌊a / 100000⌋, by linarith⟩
    · rintro ⟨k, rfl⟩
      have hq : (100000 : ℚ) * k / 100000 = (k : ℚ) := by
        field_simp
      rw [hq, Int.floor_intCast]
      ring
  refine ⟨?_, ?_, ?_, key⟩
  · intro a
    unfold flagRoundAmountSingle
    split_ifs with h <;> simp [h]
  · unfold flagRoundAmountSingle
    rw [if_pos]
    rw [(key 0).mpr ⟨0, by norm_num⟩]
  · intro raw m
    unfold flagRoundAmountBatch
    split_ifs with h <;> simp [h]

/-! ## Claim C6 -/

/-- Claim C6 is falsified on the batch pipeline: ml_model.compute_rule_flags
tests membership in ['Open Tender'] case-sensitively, so the input 'Open'
(and likewise 'open tender' and 'OPEN TENDER') fires the non_open flag there,
while on the single-submission path it does not. -/
theorem c6_non_open_counterexample :
    flagNonOpenBatch ['O', 'p', 'e', 'n'] = 1
    ∧ flagNonOpenSingle ['O', 'p', 'e', 'n'] = 0 := by
  refine ⟨by decide, by decide⟩

/-- Claim C6 as amended: the single-submission path fires non_open exactly
when the lower-cased method is neither 'open tender' nor 'open' (so 'Open',
'open tender' and 'OPEN TENDER' never fire there), while the batch pipeline
compares case-sensitively against the single string 'Open Tender', so every
other spelling — including 'Open', 'open tender' and 'OPEN TENDER' — fires
the flag on the batch path. -/
theorem c6_non_open_amended :
    (∀ m : List Char, flagNonOpenSingle m = 0 ↔
      (pyLower m = openTenderLowerChars ∨ pyLower m = openLowerChars))
    ∧ (∀ m : List Char, flagNonOpenBatch m = 0 ↔ m = openTenderChars)
    ∧ flagNonOpenSingle ['O', 'p', 'e', 'n'] = 0
    ∧ flagNonOpenSingle openTenderLowerChars = 0
    ∧ flagNonOpenSingle ['O', 'P', 'E', 'N', ' ', 'T', 'E', 'N', 'D', 'E', 'R'] = 0
    ∧ flagNonOpenBatch ['O', 'p', 'e', 'n'] = 1
    ∧ flagNonOpenBatch openTenderLowerChars = 1
    ∧ flagNonOpenBatch ['O', 'P', 'E', 'N', ' ', 'T', 'E', 'N', 'D', 'E', 'R'] = 1
    ∧ flagNonOpenBatch openTenderChars = 0 := by
  refine ⟨?_, ?_, by decide, by decide, by decide, by decide, by decide, by decide, by decide⟩
  · intro m
    unfold flagNonOpenSingle
    split_ifs with h <;> simp [h]
  · intro m
    unfold flagNonOpenBatch
    split_ifs with h <;> simp [h]

/-! ## Claim C7 -/

/-- Claim C7 confirmed: on the batch pipeline the short_window flag fires
exactly when 0 < duration_days < 7 (durations are filled with 0 when
missing), on the single-submission path exactly when duration_days < 7, and
the two paths disagree exactly on durations less than or equal to 0. -/
theorem c7_short_window_flag :
    (∀ raw : Option ℚ, flagShortWindowBatch raw = 1 ↔
      0 < fillDuration raw ∧ fillDuration raw < 7)
    ∧ (∀ d : ℚ, flagShortWindowSingle d = 1 ↔ d < 7)
    ∧ (∀ d : ℚ, flagShortWindowBatch (some d) ≠ flagShortWindowSingle d ↔ d ≤ 0) := by
  refine ⟨?_, ?_, ?_⟩
  · intro raw
    unfold flagShortWindowBatch
    split_ifs with h <;> simp [h]
  · intro d
    unfold flagShortWindowSingle
    split_ifs with h <;> simp [h]
  · intro d
    unfold flagShortWindowBatch flagShortWindowSingle fillDuration
    simp only [Option.getD_some]
    by_cases h0 : d ≤ 0
    · rw [if_neg (by rintro ⟨h, -⟩; linarith), if_pos (by linarith)]
      simp [h0]
    · push_neg at h0
      by_cases h7 : d < 7
      · rw [if_pos ⟨h0, h7⟩, if_pos h7]
        simp
        linarith
      · rw [if_neg (by rintro ⟨-, h⟩; exact h7 h), if_neg h7]
        simp
        linarith

/-! ## Claim C9 -/

/-- Claim C9 is falsified as universally stated: with an empty category the
sentinel threshold is 10^12, so an amount above 10^12 (here 2 * 10^12) still
fires the high_value flag. -/
theorem c9_high_value_counterexample :
    flagHighValueSingle (2 * 10 ^ 12) none = 1 := by
  have hp : p95Sentinel none = 10 ^ 12 := rfl
  unfold flagHighValueSingle
  rw [hp, if_pos (by norm_num)]

/-- Claim C9 as amended: when the percentile query returns no value (an empty
category), the single-submission path substitutes the sentinel threshold
10^12 and no exception is raised (the flag computation is total); the
high_value flag then stays unfired for every amount up to and including
10^12, and fires only for amounts strictly above 10^12. -/
theorem c9_high_value_sentinel :
    p95Sentinel none = 10 ^ 12
    ∧ (∀ a : ℚ, flagHighValueSingle a none = 0 ↔ a ≤ 10 ^ 12)
    ∧ (∀ a : ℚ, flagHighValueSingle a none = 1 ↔ 10 ^ 12 < a) := by
  have hp : p95Sentinel none = 10 ^ 12 := rfl
  refine ⟨rfl, ?_, ?_⟩
  · intro a
    unfold flagHighValueSingle
    rw [hp]
    constructor
    · intro h
      by_contra hc
      push_neg at hc
      rw [if_pos hc] at h
      exact one_ne_zero h
    · intro h
      rw [if_neg (not_lt.mpr h)]
  · intro a
    unfold flagHighValueSingle
    rw [hp]
    constructor
    · intro h
      by_contra hc
      rw [if_neg hc] at h
      exact zero_ne_one h
    · intro h
      rw [if_pos h]

/-! ## Political connection scoring (vendor_risk_scorer.compute_political_scores)

bond_flows rows carry one (purchaser, party) pair each with its aggregated
total_value; compute_political_scores groups them by purchaser, takes
parties_funded = nunique(party) and total_bond_value = sum(total_value), and
scores against the maxima over all purchasers.  Purchaser and party names are
abstracted to natural-number identifiers. -/

structure Flow where
  purchaser : ℕ
  party : ℕ
  total_value : ℚ
deriving DecidableEq

def purchasers (fs : List Flow) : List ℕ := (fs.map (fun fl => fl.purchaser)).dedup

def flowsOf (fs : List Flow) (p : ℕ) : List Flow := fs.filter (fun fl => fl.purchaser == p)

/-- total_bond_value: sum of total_value over the purchaser's flows. -/
def totalBondValue (fs : List Flow) (p : ℕ) : ℚ :=
  ((flowsOf fs p).map (fun fl => fl.total_value)).sum

/-- parties_funded: number of distinct parties in the purchaser's flows. -/
def partiesFunded (fs : List Flow) (p : ℕ) : ℕ :=
  ((flowsOf fs p).map (fun fl => fl.party)).dedup.length

def listMaxQ : List ℚ → ℚ
  | [] => 0
  | x :: xs => xs.foldl max x

def listMaxN : List ℕ → ℕ
  | [] => 0
  | x :: xs => xs.foldl max x

/-- purchaser_stats["total_bond_value"].max(). -/
def maxTotalValue (fs : List Flow) : ℚ := listMaxQ ((purchasers fs).map (totalBondValue fs))

/-- purchaser_stats["parties_funded"].max(). -/
def maxPartiesFunded (fs : List Flow) : ℕ := listMaxN ((purchasers fs).map (partiesFunded fs))

/-- total_bond_value / (max_value + 1) * 60, exactly as in the source. -/
def valueScore (fs : List Flow) (p : ℕ) : ℚ :=
  totalBondValue fs p / (maxTotalValue fs + 1) * 60

/-- parties_funded / (max_parties + 1) * 40, exactly as in the source. -/
def diversityScore (fs : List Flow) (p : ℕ) : ℚ :=
  (partiesFunded fs p : ℚ) / ((maxPartiesFunded fs : ℚ) + 1) * 40

/-- political_score = (value_score + diversity_score).clip(0, 100).round(2). -/
def politicalScore (fs : List Flow) (p : ℕ) : ℚ :=
  round2 (clip (valueScore fs p + diversityScore fs p) 0 100)

/-- Modelled from the spec for the refinement comparison: value_score =
(entity_total_donation_value / max_across_all_entities) * 60 and
diversity_score = (distinct_recipient_count / max_across_all_entities) * 40,
summed and clipped to the interval from 0 to 100 (and rounded as the code
rounds).  The code divides by max + 1 instead. -/
def specPoliticalScore (fs : List Flow) (p : ℕ) : ℚ :=
  round2 (clip (totalBondValue fs p / maxTotalValue fs * 60 +
    (partiesFunded fs p : ℚ) / (maxPartiesFunded fs : ℚ) * 40) 0 100)

def exFlow : List Flow := [⟨0, 0, 1⟩]

/-! ## Claim C2 -/

/-- Claim C2 is falsified: with a single flow of value 1 to one party, the
unique purchaser attains both maxima, yet its political score is
1/(1+1)*60 + 1/(1+1)*40 = 50, not the 100 the spec formula (division by the
maxima themselves) would give. -/
theorem c2_political_counterexample :
    totalBondValue exFlow 0 = maxTotalValue exFlow
    ∧ partiesFunded exFlow 0 = maxPartiesFunded exFlow
    ∧ politicalScore exFlow 0 = 50
    ∧ specPoliticalScore exFlow 0 = 100
    ∧ politicalScore exFlow 0 ≠ 100 := by
  have ht : totalBondValue exFlow 0 = 1 := by
    simp [totalBondValue, flowsOf, exFlow]
  have hm : maxTotalValue exFlow = 1 := by
    simp [maxTotalValue, purchasers, listMaxQ, totalBondValue, flowsOf, exFlow]
  have hp : partiesFunded exFlow 0 = 1 := by
    simp [partiesFunded, flowsOf, exFlow]
  have hmp : maxPartiesFunded exFlow = 1 := by
    simp [maxPartiesFunded, purchasers, listMaxN, partiesFunded, flowsOf, exFlow]
  have hv : valueScore exFlow 0 + diversityScore exFlow 0 = 50 := by
    unfold valueScore diversityScore
    rw [ht, hm, hp, hmp]
    norm_num
  have h50 : politicalScore exFlow 0 = 50 := by
    unfold politicalScore
    rw [hv, clip_eq_of_mem (by norm_num) (by norm_num),
      round2_eval_down (z := 5000) (by norm_num) (by norm_num)]
    norm_num
  have hspec : specPoliticalScore exFlow 0 = 100 := by
    have hv2 : totalBondValue exFlow 0 / maxTotalValue exFlow * 60 +
        (partiesFunded exFlow 0 : ℚ) / (maxPartiesFunded exFlow : ℚ) * 40 = 100 := by
      rw [ht, hm, hp, hmp]
      norm_num
    unfold specPoliticalScore
    rw [hv2, clip_eq_of_mem (by norm_num) (by norm_num),
      round2_eval_down (z := 10000) (by norm_num) (by norm_num)]
    norm_num
  exact ⟨ht.trans hm.symm, hp.trans hmp.symm, h50, hspec, by rw [h50]; norm_num⟩

/-- Claim C2 as amended: every purchaser's political score is
round2(clip(total/(max_total + 1) * 60 + parties/(max_parties + 1) * 40, 0,
100)) — the denominators are the maxima plus one — and in particular the
purchaser attaining both maxima M and P scores
round2(clip(M/(M+1)*60 + P/(P+1)*40, 0, 100)) rather than exactly 100. -/
theorem c2_political_amended :
    (∀ (fs : List Flow) (p : ℕ),
      politicalScore fs p = round2 (clip (totalBondValue fs p / (maxTotalValue fs + 1) * 60 +
        (partiesFunded fs p : ℚ) / ((maxPartiesFunded fs : ℚ) + 1) * 40) 0 100))
    ∧ (∀ (fs : List Flow) (p : ℕ),
        totalBondValue fs p = maxTotalValue fs →
        partiesFunded fs p = maxPartiesFunded fs →
        politicalScore fs p = round2 (clip (maxTotalValue fs / (maxTotalValue fs + 1) * 60 +
          (maxPartiesFunded fs : ℚ) / ((maxPartiesFunded fs : ℚ) + 1) * 40) 0 100)) := by
  constructor
  · intro fs p
    rfl
  · intro fs p h1 h2
    unfold politicalScore valueScore diversityScore
    rw [h1, h2]

theorem c2_political_witness :
    politicalScore exFlow 0 = round2 (clip (maxTotalValue exFlow / (maxTotalValue exFlow + 1) * 60 +
      (maxPartiesFunded exFlow : ℚ) / ((maxPartiesFunded exFlow : ℚ) + 1) * 40) 0 100) :=
  c2_political_amended.2 exFlow 0 rfl rfl

/-! ## Address clustering (company_risk_scorer.score_companies)

Each company row carries a CIN and the addr_key computed by
normalise_address; keys and CINs are abstracted to natural numbers.
cluster_size maps each key to its number of rows; address_cluster_flag is
(cluster_size >= 3); edges are added between all pairs of CINs of each
addr_key group of the rows with cluster_size >= 2 whose member list has
length in (1, 50]. -/

structure CompanyRec where
  cin : ℕ
  addrKey : ℕ
deriving DecidableEq

/-- df["addr_key"].value_counts() looked up at key k. -/
def clusterSize (rs : List CompanyRec) (k : ℕ) : ℕ :=
  (rs.filter (fun r => r.addrKey == k)).length

/-- df["address_cluster_flag"] = (df["address_cluster_size"] >= 3).astype(int). -/
def addressClusterFlag (rs : List CompanyRec) (r : CompanyRec) : ℕ :=
  if 3 ≤ clusterSize rs r.addrKey then 1 else 0

/-- df[df["address_cluster_size"] >= 2], the rows grouped for edge creation. -/
def clusteredRecs (rs : List CompanyRec) : List CompanyRec :=
  rs.filter (fun r => decide (2 ≤ clusterSize rs r.addrKey))

def clusterKeys (rs : List CompanyRec) : List ℕ :=
  ((clusteredRecs rs).map (fun r => r.addrKey)).dedup

/-- The CIN list of one addr_key group (groupby("addr_key")["CIN"].apply(list)). -/
def clusterMembers (rs : List CompanyRec) (k : ℕ) : List ℕ :=
  ((clusteredRecs rs).filter (fun r => r.addrKey == k)).map (fun r => r.cin)

/-- All ordered pairs (cins[i], cins[j]) with i < j, as in the nested loop. -/
def pairsOf : List ℕ → List (ℕ × ℕ)
  | [] => []
  | x :: xs => xs.map (fun y => (x, y)) ++ pairsOf xs

/-- The same_address edges: for each key group with 1 < len(cins) <= 50, all
pairs of its members. -/
def sameAddressEdges (rs : List CompanyRec) : List (ℕ × ℕ) :=
  (clusterKeys rs).flatMap (fun k =>
    if 1 < (clusterMembers rs k).length ∧ (clusterMembers rs k).length ≤ 50 then
      pairsOf (clusterMembers rs k)
    else [])

/-- Undirected adjacency in the networkx graph. -/
def hasSameAddressEdge (rs : List CompanyRec) (a b : ℕ) : Prop :=
  (a, b) ∈ sameAddressEdges rs ∨ (b, a) ∈ sameAddressEdges rs

theorem pairsOf_mem_left {l : List ℕ} {x y : ℕ} (h : (x, y) ∈ pairsOf l) :
    x ∈ l ∧ y ∈ l := by
  induction l with
  | nil => cases h
  | cons a as ih =>
    rw [pairsOf] at h
    rcases List.mem_append.mp h with h1 | h2
    · rcases List.mem_map.mp h1 with ⟨y', hy', he⟩
      cases he
      exact ⟨List.mem_cons_self _ _, List.mem_cons_of_mem _ hy'⟩
    · have hh := ih h2
      exact ⟨List.mem_cons_of_mem _ hh.1, List.mem_cons_of_mem _ hh.2⟩

theorem pairsOf_ne {l : List ℕ} (hnd : l.Nodup) {x y : ℕ} (h : (x, y) ∈ pairsOf l) :
    x ≠ y := by
  induction l with
  | nil => cases h
  | cons a as ih =>
    rw [pairsOf] at h
    rcases List.mem_append.mp h with h1 | h2
    · rcases List.mem_map.mp h1 with ⟨y', hy', he⟩
      cases he
      intro he2
      exact (List.nodup_cons.mp hnd).1 (he2 ▸ hy')
    · exact ih (List.nodup_cons.mp hnd).2 h2

theorem pairsOf_of_mem {l : List ℕ} {x y : ℕ} (hx : x ∈ l) (hy : y ∈ l) (hne : x ≠ y) :
    (x, y) ∈ pairsOf l ∨ (y, x) ∈ pairsOf l := by
  induction l with
  | nil => cases hx
  | cons a as ih =>
    rw [pairsOf]
    rcases List.mem_cons.mp hx with rfl | hx'
    · have hy' : y ∈ as := by
        rcases List.mem_cons.mp hy with rfl | h
        · exact absurd rfl hne
        · exact h
      exact Or.inl (List.mem_append.mpr (Or.inl (List.mem_map.mpr ⟨y, hy', rfl⟩)))
    · rcases List.mem_cons.mp hy with rfl | hy'
      · exact Or.inr (List.mem_append.mpr (Or.inl (List.mem_map.mpr ⟨x, hx', rfl⟩)))
      · rcases ih hx' hy' with h | h
        · exact Or.inl (List.mem_append.mpr (Or.inr h))
        · exact Or.inr (List.mem_append.mpr (Or.inr h))

theorem clusterMembers_of_size {rs : List CompanyRec} {k : ℕ} (h : 2 ≤ clusterSize rs k) :
    clusterMembers rs k = (rs.filter (fun r => r.addrKey == k)).map (fun r => r.cin) := by
  unfold clusterMembers clusteredRecs
  rw [List.filter_filter]
  congr 1
  apply List.filter_congr
  intro r _hr
  by_cases hk : r.addrKey = k
  · rw [hk]
    simp [h]
  · simp [hk]

theorem clusterMembers_length {rs : List CompanyRec} {k : ℕ} (h : 2 ≤ clusterSize rs k) :
    (clusterMembers rs k).length = clusterSize rs k := by
  rw [clusterMembers_of_size h, List.length_map]
  rfl

theorem mem_clusterMembers {rs : List CompanyRec} {k a : ℕ} (h : 2 ≤ clusterSize rs k) :
    a ∈ clusterMembers rs k ↔ ∃ r, r ∈ rs ∧ r.addrKey = k ∧ r.cin = a := by
  rw [clusterMembers_of_size h]
  constructor
  · intro hm
    rcases List.mem_map.mp hm with ⟨r, hr, he⟩
    rcases List.mem_filter.mp hr with ⟨hr1, hr2⟩
    exact ⟨r, hr1, beq_iff_eq.mp hr2, he⟩
  · rintro ⟨r, hr, hk, hc⟩
    exact List.mem_map.mpr ⟨r, List.mem_filter.mpr ⟨hr, beq_iff_eq.mpr hk⟩, hc⟩

theorem clusterMembers_nodup {rs : List CompanyRec}
    (hnd : (rs.map (fun r => r.cin)).Nodup) (k : ℕ) : (clusterMembers rs k).Nodup := by
  unfold clusterMembers clusteredRecs
  have hsub : (((rs.filter (fun r => decide (2 ≤ clusterSize rs r.addrKey))).filter
      (fun r => r.addrKey == k)).map (fun r => r.cin)).Sublist (rs.map (fun r => r.cin)) :=
    ((List.filter_sublist _).trans (List.filter_sublist _)).map _
  exact hnd.sublist hsub

theorem cin_inj {rs : List CompanyRec} (hnd : (rs.map (fun r => r.cin)).Nodup)
    {r r' : CompanyRec} (hr : r ∈ rs) (hr' : r' ∈ rs) (h : r.cin = r'.cin) : r = r' :=
  List.inj_on_of_nodup_map hnd hr hr' h

theorem members_nonempty_size {rs : List CompanyRec} {k : ℕ}
    (h : clusterMembers rs k ≠ []) : 2 ≤ clusterSize rs k := by
  unfold clusterMembers clusteredRecs at h
  rcases List.exists_mem_of_ne_nil _ h with ⟨a, ha⟩
  rcases List.mem_map.mp ha with ⟨r, hr, -⟩
  rcases List.mem_filter.mp hr with ⟨hr2, hk⟩
  rcases List.mem_filter.mp hr2 with ⟨-, hsz⟩
  have hs := of_decide_eq_true hsz
  rwa [beq_iff_eq.mp hk] at hs

theorem edge_elim {rs : List CompanyRec} (hnd : (rs.map (fun r => r.cin)).Nodup)
    {a b : ℕ} (h : (a, b) ∈ sameAddressEdges rs) :
    ∃ k, 2 ≤ clusterSize rs k ∧ clusterSize rs k ≤ 50
      ∧ a ∈ clusterMembers rs k ∧ b ∈ clusterMembers rs k ∧ a ≠ b := by
  unfold sameAddressEdges at h
  rcases List.mem_flatMap.mp h with ⟨k, _hk, hmem⟩
  by_cases hcond : 1 < (clusterMembers rs k).length ∧ (clusterMembers rs k).length ≤ 50
  · rw [if_pos hcond] at hmem
    have hne : clusterMembers rs k ≠ [] := by
      intro he
      rw [he] at hcond
      simp at hcond
    have hsz := members_nonempty_size hne
    have h50 : clusterSize rs k ≤ 50 := by
      rw [← clusterMembers_length hsz]
      exact hcond.2
    obtain ⟨hma, hmb⟩ := pairsOf_mem_left hmem
    exact ⟨k, hsz, h50, hma, hmb, pairsOf_ne (clusterMembers_nodup hnd k) hmem⟩
  · rw [if_neg hcond] at hmem
    cases hmem

/-! ## Claim C8 -/

/-- Claim C8 confirmed: for company rows with pairwise distinct CINs,
address_cluster_flag fires exactly when the row's address cluster has size at
least 3 (regardless of edge creation), and two rows are joined by a
same_address edge exactly when they are distinct rows sharing an addr_key
whose cluster size lies between 2 and 50 inclusive; clusters above 50
contribute no edges while the flag and the size remain recorded. -/
theorem c8_address_cluster (rs : List CompanyRec)
    (hnd : (rs.map (fun r => r.cin)).Nodup) :
    (∀ r ∈ rs, (addressClusterFlag rs r = 1 ↔ 3 ≤ clusterSize rs r.addrKey))
    ∧ (∀ r ∈ rs, ∀ r' ∈ rs,
        (hasSameAddressEdge rs r.cin r'.cin ↔
          r.cin ≠ r'.cin ∧ r.addrKey = r'.addrKey ∧
          2 ≤ clusterSize rs r.addrKey ∧ clusterSize rs r.addrKey ≤ 50)) := by
  constructor
  · intro r _hr
    unfold addressClusterFlag
    split_ifs with h <;> simp [h]
  · intro r hr r' hr'
    constructor
    · intro hedge
      have key : ∀ {u v : CompanyRec}, u ∈ rs → v ∈ rs →
          (u.cin, v.cin) ∈ sameAddressEdges rs →
          u.cin ≠ v.cin ∧ u.addrKey = v.addrKey
            ∧ 2 ≤ clusterSize rs u.addrKey ∧ clusterSize rs u.addrKey ≤ 50 := by
        intro u v hu hv h
        obtain ⟨k, hsz, h50, hma, hmb, hne⟩ := edge_elim hnd h
        obtain ⟨ru, hru, hku, hcu⟩ := (mem_clusterMembers hsz).mp hma
        obtain ⟨rv, hrv, hkv, hcv⟩ := (mem_clusterMembers hsz).mp hmb
        have heu : ru = u := cin_inj hnd hru hu hcu
        have hev : rv = v := cin_inj hnd hrv hv hcv
        have hku2 : u.addrKey = k := heu ▸ hku
        have hkv2 : v.addrKey = k := hev ▸ hkv
        rw [hku2]
        exact ⟨hne, hkv2.symm, hsz, h50⟩
      rcases hedge with h | h
      · exact key hr hr' h
      · obtain ⟨hne, hk, hsz, h50⟩ := key hr' hr h
        rw [hk] at hsz h50
        exact ⟨hne.symm, hk.symm, hsz, h50⟩
    · rintro ⟨hne, hkeq, hsz, h50⟩
      have hrc : r ∈ clusteredRecs rs :=
        List.mem_filter.mpr ⟨hr, decide_eq_true hsz⟩
      have hk : r.addrKey ∈ clusterKeys rs :=
        List.mem_dedup.mpr (List.mem_map.mpr ⟨r, hrc, rfl⟩)
      have hma : r.cin ∈ clusterMembers rs r.addrKey :=
        (mem_clusterMembers hsz).mpr ⟨r, hr, rfl, rfl⟩
      have hmb : r'.cin ∈ clusterMembers rs r.addrKey :=
        (mem_clusterMembers hsz).mpr ⟨r', hr', hkeq.symm, rfl⟩
      have hcond : 1 < (clusterMembers rs r.addrKey).length
          ∧ (clusterMembers rs r.addrKey).length ≤ 50 := by
        rw [clusterMembers_length hsz]
        exact ⟨hsz, h50⟩
      have hpair := pairsOf_of_mem hma hmb hne
      unfold hasSameAddressEdge sameAddressEdges
      rcases hpair with h | h
      · exact Or.inl (List.mem_flatMap.mpr ⟨r.addrKey, hk, by rw [if_pos hcond]; exact h⟩)
      · exact Or.inr (List.mem_flatMap.mpr ⟨r.addrKey, hk, by rw [if_pos hcond]; exact h⟩)

def exCompanies : List CompanyRec := [⟨0, 5⟩, ⟨1, 5⟩, ⟨2, 5⟩]

theorem c8_address_cluster_witness :
    addressClusterFlag exCompanies ⟨0, 5⟩ = 1 ∧ hasSameAddressEdge exCompanies 0 1 :=
  ⟨((c8_address_cluster exCompanies (by decide)).1 ⟨0, 5⟩ (by decide)).mpr (by decide),
    ((c8_address_cluster exCompanies (by decide)).2 ⟨0, 5⟩ (by decide) ⟨1, 5⟩
      (by decide)).mpr ⟨by decide, rfl, by decide, by decide⟩⟩

/-! ## Name normalisation (entity_resolution.normalise_name)

Strings are lists of characters.  re.sub(r"[^a-z0-9\s]", " ", .) keeps
lowercase letters, digits and whitespace; the corporate-suffix patterns are
word-delimited (regex \b boundaries, where a word character is an ASCII
letter, digit or underscore); re.sub(r"\s+", " ", .) collapses whitespace
runs; strip trims whitespace at both ends. -/

/-- Python \s on the ASCII range: space, tab, newline, carriage return,
vertical tab, form feed. -/
def isSpaceChar (c : Char) : Bool :=
  (c == ' ') || (c == '\t') || (c == '\n') || (c == '\r') || (c == '\x0b') || (c == '\x0c')

/-- Python str.strip(): drop whitespace at both ends. -/
def pyStrip (s : List Char) : List Char :=
  ((s.dropWhile isSpaceChar).reverse.dropWhile isSpaceChar).reverse

def isLowerAlpha (c : Char) : Bool := decide (97 ≤ c.toNat) && decide (c.toNat ≤ 122)

def isDigitChar (c : Char) : Bool := decide (48 ≤ c.toNat) && decide (c.toNat ≤ 57)

/-- The character class [a-z0-9\s]. -/
def keepChar (c : Char) : Bool := isLowerAlpha c || isDigitChar c || isSpaceChar c

/-- re.sub(r"[^a-z0-9\s]", " ", name): every character outside the class
becomes a space. -/
def depunct (s : List Char) : List Char := s.map (fun c => if keepChar c then c else ' ')

/-- Python regex word character \w (ASCII): uppercase letter, lowercase
letter, digit or underscore. -/
def isWordChar (c : Char) : Bool :=
  (decide (65 ≤ c.toNat) && decide (c.toNat ≤ 90)) || isLowerAlpha c || isDigitChar c ||
    (c == '_')

/-- The \b test after a match: end of string, or a non-word character. -/
def boundaryAfter (l : List Char) : Bool :=
  match l with
  | [] => true
  | c :: _ => !isWordChar c

/-- re.sub(r"\b" + w + r"\b", "", s) for the word w = a :: as: scan left to
right; where the previous character (if any) is not a word character, the
word occurs, and the occurrence is followed by a boundary, delete the
occurrence and resume after it (the character before the resumption point is
the word's last character, a word character); otherwise copy one character.
prevW records whether the previously scanned character is a word character. -/
def rmWordAux (a : Char) (as : List Char) : Bool → List Char → List Char
  | _, [] => []
  | prevW, c :: cs =>
    if !prevW && (a :: as).isPrefixOf (c :: cs) && boundaryAfter (cs.drop as.length) then
      rmWordAux a as true (cs.drop as.length)
    else
      c :: rmWordAux a as (isWordChar c) cs
termination_by _ l => l.length
decreasing_by
  · simp only [List.length_cons, List.length_drop]
    omega
  · simp only [List.length_cons]
    omega

def removeWord (w : List Char) (s : List Char) : List Char :=
  match w with
  | [] => s
  | a :: as => rmWordAux a as false s

/-- STRIP_SUFFIXES: private, limited, pvt, ltd, llp, opc, inc, corp, company,
enterprises, group, foundation, trust — in source order. -/
def stripPatterns : List (List Char) :=
  [['p','r','i','v','a','t','e'], ['l','i','m','i','t','e','d'], ['p','v','t'],
   ['l','t','d'], ['l','l','p'], ['o','p','c'], ['i','n','c'], ['c','o','r','p'],
   ['c','o','m','p','a','n','y'], ['e','n','t','e','r','p','r','i','s','e','s'],
   ['g','r','o','u','p'], ['f','o','u','n','d','a','t','i','o','n'],
   ['t','r','u','s','t']]

/-- re.sub(r"\s+", " ", s): collapse each maximal whitespace run to a single
space. -/
def collapseWs : List Char → List Char
  | [] => []
  | c :: cs =>
    if isSpaceChar c then ' ' :: collapseWs (cs.dropWhile isSpaceChar)
    else c :: collapseWs cs
termination_by l => l.length
decreasing_by
  · simp only [List.length_cons]
    exact Nat.lt_succ_of_le (List.Sublist.length_le (List.dropWhile_sublist _))
  · simp only [List.length_cons]
    omega

/-- entity_resolution.normalise_name on a string input: lower, strip, replace
non-[a-z0-9\s] by spaces, remove the corporate-suffix words, collapse
whitespace, strip. -/
def normalise_name (s : List Char) : List Char :=
  pyStrip (collapseWs (stripPatterns.foldl (fun acc w => removeWord w acc)
    (depunct (pyStrip (pyLower s)))))

/-- A Python value passed to normalise_name: a string or anything else. -/
inductive PyVal where
  | str : List Char → PyVal
  | other : PyVal

/-- normalise_name including the isinstance guard: non-string input yields
the empty string. -/
def normalise_name_py : PyVal → List Char
  | PyVal.str s => normalise_name s
  | PyVal.other => []

/-! ## Fuzzy matching (entity_resolution.tokenise, jaccard_similarity,
build_inverted_index, find_matches) -/

/-- Python str.split(): maximal runs of non-whitespace characters. -/
def splitWs : List Char → List (List Char)
  | [] => []
  | c :: cs =>
    if isSpaceChar c then splitWs cs
    else (c :: cs.takeWhile (fun d => !isSpaceChar d)) ::
      splitWs (cs.dropWhile (fun d => !isSpaceChar d))
termination_by l => l.length
decreasing_by
  · simp only [List.length_cons]
    omega
  · simp only [List.length_cons]
    exact Nat.lt_succ_of_le (List.Sublist.length_le (List.dropWhile_sublist _))

/-- entity_resolution.tokenise: the set of split tokens of length > 1,
modelled as a duplicate-free list in first-occurrence order. -/
def tokenise (s : List Char) : List (List Char) :=
  ((splitWs s).filter (fun t => decide (1 < t.length))).dedup

/-- entity_resolution.jaccard_similarity on token sets modelled as
duplicate-free lists: 0 when either is empty, else |intersection| / |union|. -/
def jaccardSim (A B : List (List Char)) : ℚ :=
  if A.isEmpty || B.isEmpty then 0
  else ((A.filter (fun t => B.contains t)).length : ℚ) /
    (((A.length + (B.filter (fun t => !A.contains t)).length : ℕ)) : ℚ)

/-- One inverted-index entry: (entity_id, raw_name, norm, tokens). -/
structure Entry where
  eid : ℕ
  raw : List Char
  norm : List Char
  toks : List (List Char)
deriving DecidableEq

/-- build_inverted_index: normalise and tokenise every (id, raw) pair. -/
def mkEntries (input : List (ℕ × List Char)) : List Entry :=
  input.map (fun p => ⟨p.1, p.2, normalise_name p.2, tokenise (normalise_name p.2)⟩)

/-- index[token]: the entries containing the token, in entry order (the
defaultdict is filled by one pass over the entries). -/
def indexLookup (entries : List Entry) (tok : List Char) : List Entry :=
  entries.filter (fun e => e.toks.contains tok)

/-- candidate_map/candidate_scores accumulation: the first encounter of an
entity id wins; later encounters are skipped. -/
def addCand (acc : List Entry) (e : Entry) : List Entry :=
  if acc.any (fun x => x.eid == e.eid) then acc else acc ++ [e]

def gatherCands (entries : List Entry) (qt : List (List Char)) : List Entry :=
  qt.foldl (fun acc tok => (indexLookup entries tok).foldl addCand acc) []

/-- Stable insertion into a list sorted descending by score (Python sorted
is stable: equal scores keep insertion order). -/
def insertDesc (x : ℕ × List Char × ℚ) :
    List (ℕ × List Char × ℚ) → List (ℕ × List Char × ℚ)
  | [] => [x]
  | y :: ys => if y.2.2 < x.2.2 then x :: y :: ys else y :: insertDesc x ys

def sortDesc (l : List (ℕ × List Char × ℚ)) : List (ℕ × List Char × ℚ) :=
  l.foldr insertDesc []

/-- entity_resolution.find_matches: empty-token early return, exact
normalised-match short circuit over the entry list, then Jaccard scoring of
the candidates reachable through the inverted index, threshold filter,
stable descending sort, topK cut. -/
def find_matches (entries : List Entry) (q : List Char) (threshold : ℚ) (topK : ℕ) :
    List (ℕ × List Char × ℚ) :=
  if (tokenise (normalise_name q)).isEmpty then []
  else
    match entries.find? (fun e => e.norm == normalise_name q) with
    | some e => [(e.eid, e.raw, 1)]
    | none =>
      (sortDesc (((gatherCands entries (tokenise (normalise_name q))).map
        (fun e => (e.eid, e.raw, jaccardSim (tokenise (normalise_name q)) e.toks))).filter
        (fun r => decide (threshold ≤ r.2.2)))).take topK

/-! ## Infrastructure for the idempotence proof (claim C10) -/

/-- Maximal runs of word characters of a string; the word-token list used to
reason about the \b-delimited suffix removal. -/
def wtokens : List Char → List (List Char)
  | [] => []
  | c :: cs =>
    if isWordChar c then (c :: cs.takeWhile isWordChar) :: wtokens (cs.dropWhile isWordChar)
    else wtokens cs
termination_by l => l.length
decreasing_by
  · simp only [List.length_cons]
    exact Nat.lt_succ_of_le (List.Sublist.length_le (List.dropWhile_sublist _))
  · simp only [List.length_cons]
    omega

/-- Tokens joined by single spaces, the canonical output shape of
normalise_name. -/
def joinTokens : List (List Char) → List Char
  | [] => []
  | [t] => t
  | t :: t' :: ts => t ++ ' ' :: joinTokens (t' :: ts)

theorem space_chars {c : Char} (h : isSpaceChar c = true) :
    c = ' ' ∨ c = '\t' ∨ c = '\n' ∨ c = '\r' ∨ c = '\x0b' ∨ c = '\x0c' := by
  simp [isSpaceChar] at h
  tauto

theorem space_not_word {c : Char} (h : isSpaceChar c = true) : isWordChar c = false := by
  rcases space_chars h with rfl | rfl | rfl | rfl | rfl | rfl <;> decide

theorem word_not_space {c : Char} (hw : isWordChar c = true) : isSpaceChar c = false := by
  cases hsp : isSpaceChar c
  · rfl
  · rw [space_not_word hsp] at hw
    cases hw

theorem keep_word_of_not_space {c : Char} (hk : keepChar c = true)
    (hs : isSpaceChar c = false) : isWordChar c = true := by
  unfold keepChar at hk
  rcases Bool.or_eq_true_iff.mp hk with h | h
  · rcases Bool.or_eq_true_iff.mp h with h2 | h2
    · simp [isWordChar, h2]
    · simp [isWordChar, h2]
  · rw [h] at hs
    cases hs

theorem keep_space_of_not_word {c : Char} (hk : keepChar c = true)
    (hw : isWordChar c = false) : isSpaceChar c = true := by
  cases hsp : isSpaceChar c
  · rw [keep_word_of_not_space hk hsp] at hw
    cases hw
  · rfl

theorem pyLowerChar_keep {c : Char} (hk : keepChar c = true) : pyLowerChar c = c := by
  unfold pyLowerChar
  rw [if_neg]
  rintro ⟨h1, h2⟩
  unfold keepChar at hk
  rcases Bool.or_eq_true_iff.mp hk with h | h
  · rcases Bool.or_eq_true_iff.mp h with h3 | h3
    · unfold isLowerAlpha at h3
      simp at h3
      omega
    · unfold isDigitChar at h3
      simp at h3
      omega
  · rcases space_chars h with rfl | rfl | rfl | rfl | rfl | rfl <;> exact absurd h1 (by decide)

/-! ### Small takeWhile and dropWhile facts -/

theorem takeWhile_append_all {p : Char → Bool} {u v : List Char}
    (h : ∀ c ∈ u, p c = true) : (u ++ v).takeWhile p = u ++ v.takeWhile p := by
  induction u with
  | nil => rfl
  | cons c cs ih =>
    rw [List.cons_append, List.takeWhile_cons, if_pos (h c (List.mem_cons_self _ _)),
      ih (fun d hd => h d (List.mem_cons_of_mem _ hd)), List.cons_append]

theorem dropWhile_append_all {p : Char → Bool} {u v : List Char}
    (h : ∀ c ∈ u, p c = true) : (u ++ v).dropWhile p = v.dropWhile p := by
  induction u with
  | nil => rfl
  | cons c cs ih =>
    rw [List.cons_append, List.dropWhile_cons, if_pos (h c (List.mem_cons_self _ _)),
      ih (fun d hd => h d (List.mem_cons_of_mem _ hd))]

theorem dropWhile_head_false {p : Char → Bool} {l : List Char} {d : Char} {r : List Char}
    (h : l.dropWhile p = d :: r) : p d = false := by
  induction l with
  | nil => cases h
  | cons c cs ih =>
    rw [List.dropWhile_cons] at h
    by_cases hc : p c = true
    · rw [if_pos hc] at h
      exact ih h
    · rw [if_neg hc] at h
      injection h with h1 h2
      subst h1
      cases hpc : p c
      · rfl
      · exact absurd hpc hc

theorem dropWhile_append_of_ne_nil {p : Char → Bool} {u v : List Char}
    (h : u.dropWhile p ≠ []) : (u ++ v).dropWhile p = u.dropWhile p ++ v := by
  induction u with
  | nil => exact absurd rfl h
  | cons c cs ih =>
    rw [List.cons_append, List.dropWhile_cons]
    by_cases hc : p c = true
    · rw [List.dropWhile_cons, if_pos hc] at h
      rw [if_pos hc, List.dropWhile_cons, if_pos hc]
      exact ih h
    · rw [if_neg hc, List.dropWhile_cons, if_neg hc, List.cons_append]

/-! ### wtokens facts -/

theorem wtokens_nil : wtokens [] = [] := by
  rw [wtokens]

theorem wtokens_cons_not_word {c : Char} {cs : List Char} (h : isWordChar c = false) :
    wtokens (c :: cs) = wtokens cs := by
  rw [wtokens, if_neg (by simp [h])]

theorem wtokens_cons_word {c : Char} {cs : List Char} (h : isWordChar c = true) :
    wtokens (c :: cs) =
      (c :: cs.takeWhile isWordChar) :: wtokens (cs.dropWhile isWordChar) := by
  rw [wtokens, if_pos h]

theorem wtokens_dropWhile_space {l : List Char} :
    wtokens (l.dropWhile isSpaceChar) = wtokens l := by
  induction l with
  | nil => rfl
  | cons c cs ih =>
    rw [List.dropWhile_cons]
    by_cases hc : isSpaceChar c = true
    · rw [if_pos hc, ih, wtokens_cons_not_word (space_not_word hc)]
    · rw [if_neg hc]

theorem wtokens_token_append {t v : List Char} (ht : t ≠ [])
    (htw : ∀ c ∈ t, isWordChar c = true)
    (hv : v = [] ∨ ∃ d v', v = d :: v' ∧ isWordChar d = false) :
    wtokens (t ++ v) = t :: wtokens v := by
  obtain ⟨c, t', rfl⟩ := List.exists_cons_of_ne_nil ht
  rw [List.cons_append, wtokens_cons_word (htw c (List.mem_cons_self _ _))]
  have htake : (t' ++ v).takeWhile isWordChar = t' ++ v.takeWhile isWordChar :=
    takeWhile_append_all (fun d hd => htw d (List.mem_cons_of_mem _ hd))
  have hdrop : (t' ++ v).dropWhile isWordChar = v.dropWhile isWordChar :=
    dropWhile_append_all (fun d hd => htw d (List.mem_cons_of_mem _ hd))
  have hvt : v.takeWhile isWordChar = [] := by
    rcases hv with rfl | ⟨d, v', rfl, hd⟩
    · rfl
    · rw [List.takeWhile_cons, if_neg (by simp [hd])]
  have hvd : v.dropWhile isWordChar = v := by
    rcases hv with rfl | ⟨d, v', rfl, hd⟩
    · rfl
    · rw [List.dropWhile_cons, if_neg (by simp [hd])]
  rw [htake, hdrop, hvt, hvd, List.append_nil]

theorem wtokens_join {ts : List (List Char)}
    (h : ∀ t ∈ ts, t ≠ [] ∧ ∀ c ∈ t, isWordChar c = true) :
    wtokens (joinTokens ts) = ts := by
  induction ts with
  | nil =>
    rw [show joinTokens [] = [] from rfl, wtokens_nil]
  | cons t ts' ih =>
    cases ts' with
    | nil =>
      rw [show joinTokens [t] = t from rfl]
      have h2 := wtokens_token_append (t := t) (v := [])
        (h t (List.mem_cons_self _ _)).1 (h t (List.mem_cons_self _ _)).2 (Or.inl rfl)
      rw [List.append_nil] at h2
      rw [h2, wtokens_nil]
    | cons t'' ts'' =>
      rw [show joinTokens (t :: t'' :: ts'') = t ++ ' ' :: joinTokens (t'' :: ts'') from rfl,
        wtokens_token_append (h t (List.mem_cons_self _ _)).1
          (h t (List.mem_cons_self _ _)).2
          (Or.inr ⟨' ', joinTokens (t'' :: ts''), rfl, by decide⟩),
        wtokens_cons_not_word (by decide : isWordChar ' ' = false),
        ih (fun u hu => h u (List.mem_cons_of_mem _ hu))]

/-! ### rmWordAux facts -/

theorem rmWordAux_nil (a : Char) (as : List Char) (b : Bool) : rmWordAux a as b [] = [] := by
  rw [rmWordAux]

theorem rmWordAux_cons (a : Char) (as : List Char) (b : Bool) (c : Char) (cs : List Char) :
    rmWordAux a as b (c :: cs) =
      if !b && (a :: as).isPrefixOf (c :: cs) && boundaryAfter (cs.drop as.length) then
        rmWordAux a as true (cs.drop as.length)
      else c :: rmWordAux a as (isWordChar c) cs := by
  rw [rmWordAux]

theorem rmWordAux_chars {p : Char → Bool} (a : Char) (as : List Char) :
    ∀ (n : ℕ) (b : Bool) (s : List Char), s.length ≤ n → (∀ c ∈ s, p c = true) →
      ∀ c ∈ rmWordAux a as b s, p c = true := by
  intro n
  induction n with
  | zero =>
    intro b s hlen hs
    rw [List.eq_nil_of_length_eq_zero (Nat.le_zero.mp hlen), rmWordAux_nil]
    intro c hc
    cases hc
  | succ n ih =>
    intro b s hlen hs
    cases s with
    | nil =>
      rw [rmWordAux_nil]
      intro c hc
      cases hc
    | cons c cs =>
      simp only [List.length_cons] at hlen
      rw [rmWordAux_cons]
      split_ifs with hcond
      · apply ih true (cs.drop as.length)
        · rw [List.length_drop]
          omega
        · intro d hd
          exact hs d (List.mem_cons_of_mem _ ((List.drop_sublist _ _).subset hd))
      · intro d hd
        rcases List.mem_cons.mp hd with rfl | hd'
        · exact hs d (List.mem_cons_self _ _)
        · exact ih (isWordChar c) cs (by omega)
            (fun e he => hs e (List.mem_cons_of_mem _ he)) d hd'

/-- With the scan state on a word character, no boundary opens: the word run
is copied unchanged. -/
theorem rmWordAux_word_run {a : Char} {as : List Char} {u v : List Char}
    (hu : ∀ c ∈ u, isWordChar c = true) :
    rmWordAux a as true (u ++ v) = u ++ rmWordAux a as true v := by
  induction u with
  | nil => rfl
  | cons c cs ih =>
    rw [List.cons_append, rmWordAux_cons, if_neg (by simp),
      hu c (List.mem_cons_self _ _), ih (fun d hd => hu d (List.mem_cons_of_mem _ hd)),
      List.cons_append]

/-- With the scan state on a word character, a non-word character is copied
and the state resets. -/
theorem rmWordAux_step_not_word {a : Char} {as : List Char} {c : Char} {cs : List Char}
    (hc : isWordChar c = false) :
    rmWordAux a as true (c :: cs) = c :: rmWordAux a as false cs := by
  rw [rmWordAux_cons, if_neg (by simp), hc]

/-- A word-boundary match of the word a :: as cannot start at a token t that
differs from it (the token is a maximal word run: either the match would be
followed by a word character, or the word would have to continue past the
token into a non-word character). -/
theorem no_match_at_token {a : Char} {as : List Char}
    (hw : ∀ c ∈ (a :: as), isWordChar c = true)
    {t v : List Char} (htw : ∀ c ∈ t, isWordChar c = true)
    (hne : t ≠ a :: as)
    (hv : v = [] ∨ ∃ d v', v = d :: v' ∧ isWordChar d = false) :
    ((a :: as).isPrefixOf (t ++ v) && boundaryAfter ((t ++ v).drop (as.length + 1))) =
      false := by
  cases hP : (a :: as).isPrefixOf (t ++ v)
  · rw [Bool.false_and]
  · obtain ⟨z, hz⟩ := List.isPrefixOf_iff_prefix.mp hP
    rw [Bool.true_and]
    rcases Nat.lt_trichotomy (as.length + 1) t.length with hlt | heq | hgt
    · have hdrop : (t ++ v).drop (as.length + 1) = t.drop (as.length + 1) ++ v :=
        List.drop_append_of_le_length (le_of_lt hlt)
      have hne2 : t.drop (as.length + 1) ≠ [] := by
        intro hnil
        have hl := List.length_drop (as.length + 1) t
        rw [hnil] at hl
        simp at hl
        omega
      obtain ⟨d, r, hd⟩ := List.exists_cons_of_ne_nil hne2
      have hdm : d ∈ t := (List.drop_sublist _ _).subset (hd ▸ List.mem_cons_self d r)
      rw [hdrop, hd, List.cons_append,
        show boundaryAfter (d :: (r ++ v)) = !isWordChar d from rfl, htw d hdm]
      rfl
    · exfalso
      apply hne
      have hlen : (a :: as).length = t.length := by
        simp only [List.length_cons]
        omega
      exact ((List.append_inj hz hlen).1).symm
    · exfalso
      rcases hv with rfl | ⟨d, v', rfl, hd⟩
      · have hlen := congrArg List.length hz
        simp only [List.length_append, List.length_cons, List.append_nil] at hlen
        omega
      · have hdrop1 : (t ++ d :: v').drop t.length = d :: v' := List.drop_left t (d :: v')
        have hdrop2 : ((a :: as) ++ z).drop t.length = (a :: as).drop t.length ++ z :=
          List.drop_append_of_le_length (by simp only [List.length_cons]; omega)
        have hne2 : (a :: as).drop t.length ≠ [] := by
          intro hnil
          have hl := List.length_drop t.length (a :: as)
          rw [hnil] at hl
          simp only [List.length_nil, List.length_cons] at hl
          omega
        obtain ⟨e, r, he⟩ := List.exists_cons_of_ne_nil hne2
        have hem : e ∈ (a :: as) := (List.drop_sublist _ _).subset (he ▸ List.mem_cons_self e r)
        have hcmp := congrArg (List.drop t.length) hz
        rw [hdrop1, hdrop2, he, List.cons_append] at hcmp
        injection hcmp with h1 h2
        rw [h1] at hem
        rw [hw d hem] at hd
        cases hd

/-- The word-boundary removal of the word a :: as deletes exactly the word
tokens equal to it: the token list of the result is the filtered token list
of the input.  The input ranges over post-depunct strings (every character in
the class [a-z0-9\s]). -/
theorem rmWordAux_tokens {a : Char} {as : List Char}
    (hw : ∀ c ∈ (a :: as), isWordChar c = true) :
    ∀ (n : ℕ) (s : List Char), s.length ≤ n → (∀ c ∈ s, keepChar c = true) →
      wtokens (rmWordAux a as false s) =
        (wtokens s).filter (fun t => !(t == (a :: as))) := by
  intro n
  induction n with
  | zero =>
    intro s hlen hs
    rw [List.eq_nil_of_length_eq_zero (Nat.le_zero.mp hlen), rmWordAux_nil, wtokens_nil]
    rfl
  | succ n ih =>
    intro s hlen hs
    cases s with
    | nil =>
      rw [rmWordAux_nil, wtokens_nil]
      rfl
    | cons c cs =>
      simp only [List.length_cons] at hlen
      by_cases hcw : isWordChar c = true
      · have hcs : cs.takeWhile isWordChar ++ cs.dropWhile isWordChar = cs :=
          List.takeWhile_append_dropWhile (p := isWordChar) (l := cs)
        have htall : ∀ d ∈ (c :: cs.takeWhile isWordChar), isWordChar d = true := by
          intro d hd
          rcases List.mem_cons.mp hd with rfl | hd'
          · exact hcw
          · exact List.mem_takeWhile_imp hd'
        have hrv : cs.dropWhile isWordChar = [] ∨
            ∃ d r', cs.dropWhile isWordChar = d :: r' ∧ isWordChar d = false := by
          cases hr : cs.dropWhile isWordChar with
          | nil => exact Or.inl rfl
          | cons d r' => exact Or.inr ⟨d, r', rfl, dropWhile_head_false hr⟩
        have hwt : wtokens (c :: cs) =
            (c :: cs.takeWhile isWordChar) :: wtokens (cs.dropWhile isWordChar) :=
          wtokens_cons_word hcw
        have hsplit : c :: cs = (c :: cs.takeWhile isWordChar) ++ cs.dropWhile isWordChar := by
          rw [List.cons_append, hcs]
        have hlenr : (cs.dropWhile isWordChar).length ≤ cs.length :=
          (List.dropWhile_sublist _).length_le
        by_cases htok : (c :: cs.takeWhile isWordChar) = a :: as
        · have hpre : (a :: as).isPrefixOf (c :: cs) = true := by
            rw [List.isPrefixOf_iff_prefix]
            exact ⟨cs.dropWhile isWordChar, by rw [← htok, ← hsplit]⟩
          have hdropr : cs.drop as.length = cs.dropWhile isWordChar := by
            have hlent : (cs.takeWhile isWordChar).length = as.length := by
              have h2 := congrArg List.length htok
              simp only [List.length_cons] at h2
              omega
            have h3 := List.drop_left (cs.takeWhile isWordChar) (cs.dropWhile isWordChar)
            rw [hcs, hlent] at h3
            exact h3
          have hbnd : boundaryAfter (cs.drop as.length) = true := by
            rw [hdropr]
            rcases hrv with hr0 | ⟨d, r', hr1, hd⟩
            · rw [hr0]
              rfl
            · rw [hr1, show boundaryAfter (d :: r') = !isWordChar d from rfl, hd]
              rfl
          rw [rmWordAux_cons, if_pos (by rw [hpre, hbnd]; rfl), hdropr]
          rcases hrv with hr0 | ⟨d, r', hr1, hd⟩
          · rw [hr0, rmWordAux_nil, wtokens_nil, hwt, hr0, wtokens_nil, htok]
            simp
          · have hchars : ∀ e ∈ r', keepChar e = true := by
              intro e he
              apply hs e
              apply List.mem_cons_of_mem
              exact (List.dropWhile_sublist _).subset (hr1 ▸ List.mem_cons_of_mem _ he)
            have hlen' : r'.length ≤ n := by
              have h2 := congrArg List.length hr1
              simp only [List.length_cons] at h2
              omega
            rw [hr1, rmWordAux_step_not_word hd, wtokens_cons_not_word hd,
              ih r' hlen' hchars, hwt, hr1, wtokens_cons_not_word hd, htok,
              List.filter_cons, if_neg (by simp)]
        · have hnm := no_match_at_token hw htall htok hrv
          rw [← hsplit, List.drop_succ_cons] at hnm
          rw [rmWordAux_cons, if_neg (by
            intro hcontra
            simp only [Bool.not_false, Bool.true_and] at hcontra
            rw [hnm] at hcontra
            cases hcontra), hcw]
          have hrun : rmWordAux a as true cs =
              cs.takeWhile isWordChar ++ rmWordAux a as true (cs.dropWhile isWordChar) := by
            conv =>
              lhs
              rw [← hcs]
            exact rmWordAux_word_run (fun d hd => List.mem_takeWhile_imp hd)
          rw [hrun]
          rcases hrv with hr0 | ⟨d, r', hr1, hd⟩
          · rw [hr0, rmWordAux_nil, List.append_nil]
            have hjt := wtokens_token_append (t := c :: cs.takeWhile isWordChar) (v := [])
              (by simp) htall (Or.inl rfl)
            rw [List.append_nil] at hjt
            rw [show c :: (cs.takeWhile isWordChar) =
              (c :: cs.takeWhile isWordChar) from rfl] at hjt
            rw [hjt, wtokens_nil, hwt, hr0, wtokens_nil, List.filter_cons,
              if_pos (by
                show (!((c :: cs.takeWhile isWordChar) == (a :: as))) = true
                rw [beq_eq_false_iff_ne.mpr htok]
                rfl)]
            rfl
          · have hchars : ∀ e ∈ r', keepChar e = true := by
              intro e he
              apply hs e
              apply List.mem_cons_of_mem
              exact (List.dropWhile_sublist _).subset (hr1 ▸ List.mem_cons_of_mem _ he)
            have hlen' : r'.length ≤ n := by
              have h2 := congrArg List.length hr1
              simp only [List.length_cons] at h2
              omega
            rw [hr1, rmWordAux_step_not_word hd,
              show c :: (cs.takeWhile isWordChar ++ d :: rmWordAux a as false r') =
                (c :: cs.takeWhile isWordChar) ++ (d :: rmWordAux a as false r') from rfl,
              wtokens_token_append (by simp) htall (Or.inr ⟨d, rmWordAux a as false r', rfl, hd⟩),
              wtokens_cons_not_word hd, ih r' hlen' hchars, hwt, hr1,
              wtokens_cons_not_word hd, List.filter_cons, if_pos (by
                show (!((c :: cs.takeWhile isWordChar) == (a :: as))) = true
                rw [beq_eq_false_iff_ne.mpr htok]
                rfl)]
      · have hcw' : isWordChar c = false := by
          cases h2 : isWordChar c
          · rfl
          · exact absurd h2 hcw
        have hac : (a == c) = false := by
          have haw := hw a (List.mem_cons_self _ _)
          cases h2 : (a == c)
          · rfl
          · rw [beq_iff_eq.mp h2] at haw
            rw [haw] at hcw'
            cases hcw'
        have hpre : (a :: as).isPrefixOf (c :: cs) = false := by
          rw [show (a :: as).isPrefixOf (c :: cs) = ((a == c) && as.isPrefixOf cs) from rfl,
            hac, Bool.false_and]
        rw [rmWordAux_cons, if_neg (by
          intro hcontra
          simp only [Bool.not_false, Bool.true_and, hpre, Bool.false_and] at hcontra
          exact absurd hcontra (by decide)), hcw',
          wtokens_cons_not_word hcw',
          ih cs (by omega) (fun e he => hs e (List.mem_cons_of_mem _ he)),
          wtokens_cons_not_word hcw']

/-! ### collapseWs and pyStrip facts -/

theorem collapseWs_nil : collapseWs [] = [] := by
  rw [collapseWs]

theorem collapseWs_cons_space {c : Char} {cs : List Char} (h : isSpaceChar c = true) :
    collapseWs (c :: cs) = ' ' :: collapseWs (cs.dropWhile isSpaceChar) := by
  rw [collapseWs, if_pos h]

theorem collapseWs_cons_not_space {c : Char} {cs : List Char} (h : isSpaceChar c = false) :
    collapseWs (c :: cs) = c :: collapseWs cs := by
  rw [collapseWs, if_neg (by simp [h])]

theorem collapseWs_run {u v : List Char} (hu : ∀ c ∈ u, isSpaceChar c = false) :
    collapseWs (u ++ v) = u ++ collapseWs v := by
  induction u with
  | nil => rfl
  | cons c cs ih =>
    rw [List.cons_append, collapseWs_cons_not_space (hu c (List.mem_cons_self _ _)),
      ih (fun d hd => hu d (List.mem_cons_of_mem _ hd)), List.cons_append]

theorem pyStrip_nil : pyStrip [] = [] := rfl

theorem pyStrip_space_cons {x : List Char} : pyStrip (' ' :: x) = pyStrip x := by
  unfold pyStrip
  rw [List.dropWhile_cons, if_pos (by decide)]

/-- Stripping a string that opens with a nonempty word run: the leading side
is kept whole and only trailing whitespace of the remainder is removed. -/
theorem pyStrip_word_append {t z : List Char} (ht : t ≠ [])
    (htw : ∀ c ∈ t, isWordChar c = true) :
    pyStrip (t ++ z) = t ++ (z.reverse.dropWhile isSpaceChar).reverse := by
  obtain ⟨c, t', rfl⟩ := List.exists_cons_of_ne_nil ht
  unfold pyStrip
  rw [List.cons_append, List.dropWhile_cons,
    if_neg (by rw [word_not_space (htw c (List.mem_cons_self _ _))]; simp),
    show c :: (t' ++ z) = (c :: t') ++ z from rfl, List.reverse_append]
  cases hz : z.reverse.dropWhile isSpaceChar with
  | nil =>
    have hall : ∀ d ∈ z.reverse, isSpaceChar d = true := List.dropWhile_eq_nil_iff.mp hz
    rw [dropWhile_append_all hall]
    have hne : (c :: t').reverse ≠ [] := by simp
    obtain ⟨d, r, hd⟩ := List.exists_cons_of_ne_nil hne
    have hdm : d ∈ (c :: t') :=
      List.mem_reverse.mp (hd ▸ List.mem_cons_self d r)
    rw [hd, List.dropWhile_cons, if_neg (by rw [word_not_space (htw d hdm)]; simp), ← hd,
      List.reverse_reverse]
    simp
  | cons e w' =>
    rw [dropWhile_append_of_ne_nil (by rw [hz]; simp), hz, List.reverse_append,
      List.reverse_reverse]

theorem joinTokens_ne_nil {t : List Char} {ts : List (List Char)} (ht : t ≠ []) :
    joinTokens (t :: ts) ≠ [] := by
  cases ts with
  | nil => exact ht
  | cons t' ts' => simp [joinTokens]

/-- On post-depunct strings, collapsing whitespace and stripping yields
exactly the word tokens joined by single spaces. -/
theorem strip_collapse : ∀ (n : ℕ) (y : List Char), y.length ≤ n →
    (∀ c ∈ y, keepChar c = true) →
    pyStrip (collapseWs y) = joinTokens (wtokens y) := by
  intro n
  induction n with
  | zero =>
    intro y hlen hy
    rw [List.eq_nil_of_length_eq_zero (Nat.le_zero.mp hlen), collapseWs_nil, pyStrip_nil,
      wtokens_nil]
    rfl
  | succ n ih =>
    intro y hlen hy
    cases y with
    | nil =>
      rw [collapseWs_nil, pyStrip_nil, wtokens_nil]
      rfl
    | cons c cs =>
      simp only [List.length_cons] at hlen
      by_cases hsp : isSpaceChar c = true
      · rw [collapseWs_cons_space hsp, pyStrip_space_cons,
          wtokens_cons_not_word (space_not_word hsp), ← wtokens_dropWhile_space (l := cs)]
        exact ih (cs.dropWhile isSpaceChar)
          (le_trans (List.Sublist.length_le (List.dropWhile_sublist _)) (by omega))
          (fun e he => hy e (List.mem_cons_of_mem _ ((List.dropWhile_sublist _).subset he)))
      · have hsp' : isSpaceChar c = false := by
          cases h2 : isSpaceChar c
          · rfl
          · exact absurd h2 hsp
        have hword : isWordChar c = true := keep_word_of_not_space (hy c (List.mem_cons_self _ _)) hsp'
        have hcs : cs.takeWhile isWordChar ++ cs.dropWhile isWordChar = cs :=
          List.takeWhile_append_dropWhile (p := isWordChar) (l := cs)
        have htall : ∀ d ∈ (c :: cs.takeWhile isWordChar), isWordChar d = true := by
          intro d hd
          rcases List.mem_cons.mp hd with rfl | hd'
          · exact hword
          · exact List.mem_takeWhile_imp hd'
        have htns : ∀ d ∈ (c :: cs.takeWhile isWordChar), isSpaceChar d = false :=
          fun d hd => word_not_space (htall d hd)
        have hcol : collapseWs (c :: cs) =
            (c :: cs.takeWhile isWordChar) ++ collapseWs (cs.dropWhile isWordChar) := by
          rw [show (c :: cs) = (c :: cs.takeWhile isWordChar) ++ cs.dropWhile isWordChar from
            by rw [List.cons_append, hcs]]
          exact collapseWs_run htns
        rw [hcol, wtokens_cons_word hword]
        have hkeepr : ∀ u ∈ cs.dropWhile isWordChar, keepChar u = true :=
          fun u hu => hy u (List.mem_cons_of_mem _ ((List.dropWhile_sublist _).subset hu))
        have hlenr : (cs.dropWhile isWordChar).length ≤ cs.length :=
          (List.dropWhile_sublist _).length_le
        cases hr : cs.dropWhile isWordChar with
        | nil =>
          rw [collapseWs_nil, pyStrip_word_append (by simp) htall, wtokens_nil]
          simp [joinTokens]
        | cons d r' =>
          have hdw : isWordChar d = false := dropWhile_head_false hr
          have hdsp : isSpaceChar d = true :=
            keep_space_of_not_word (hkeepr d (hr ▸ List.mem_cons_self d r')) hdw
          rw [collapseWs_cons_space hdsp, wtokens_cons_not_word hdw,
            ← wtokens_dropWhile_space (l := r')]
          have hkeepr' : ∀ u ∈ r'.dropWhile isSpaceChar, keepChar u = true := by
            intro u hu
            apply hkeepr u
            rw [hr]
            exact List.mem_cons_of_mem _ ((List.dropWhile_sublist _).subset hu)
          have hlenr' : (r'.dropWhile isSpaceChar).length ≤ n := by
            have h1 : (r'.dropWhile isSpaceChar).length ≤ r'.length :=
              (List.dropWhile_sublist _).length_le
            have h2 := congrArg List.length hr
            simp only [List.length_cons] at h2
            omega
          have hih := ih (r'.dropWhile isSpaceChar) hlenr' hkeepr'
          cases hr2 : r'.dropWhile isSpaceChar with
          | nil =>
            rw [collapseWs_nil, pyStrip_word_append (by simp) htall, wtokens_nil]
            rw [show (([' '] : List Char).reverse.dropWhile isSpaceChar).reverse = []
              from by decide]
            rw [List.append_nil]
            rfl
          | cons e r2' =>
            have hens : isSpaceChar e = false := dropWhile_head_false hr2
            have hkeepe : keepChar e = true :=
              hkeepr' e (by rw [hr2]; exact List.mem_cons_self e r2')
            have hew : isWordChar e = true := keep_word_of_not_space hkeepe hens
            rw [hr2] at hih
            rw [collapseWs_cons_not_space hens] at hih ⊢
            have hJ : pyStrip (e :: collapseWs r2') = joinTokens (wtokens (e :: r2')) := hih
            have hJne : joinTokens (wtokens (e :: r2')) ≠ [] := by
              rw [wtokens_cons_word hew]
              exact joinTokens_ne_nil (by simp)
            have hstripJ : ((e :: collapseWs r2').reverse.dropWhile isSpaceChar).reverse =
                joinTokens (wtokens (e :: r2')) := by
              rw [← hJ]
              unfold pyStrip
              rw [List.dropWhile_cons, if_neg (by rw [hens]; simp)]
            have hdne : (e :: collapseWs r2').reverse.dropWhile isSpaceChar ≠ [] := by
              intro h0
              rw [h0] at hstripJ
              exact hJne (by rw [← hstripJ]; rfl)
            rw [pyStrip_word_append (by simp) htall]
            rw [show (' ' :: e :: collapseWs r2').reverse =
              (e :: collapseWs r2').reverse ++ [' '] from by rw [List.reverse_cons]]
            rw [dropWhile_append_of_ne_nil hdne, List.reverse_append, hstripJ]
            rw [show joinTokens ((c :: cs.takeWhile isWordChar) ::
              wtokens (e :: r2')) = (c :: cs.takeWhile isWordChar) ++ ' ' ::
                joinTokens (wtokens (e :: r2')) from by
              rw [wtokens_cons_word hew]
              rfl]
            rfl

/-! ### Canonical form of normalise_name output -/

theorem wtokens_shape : ∀ (n : ℕ) (s : List Char), s.length ≤ n →
    (∀ c ∈ s, keepChar c = true) →
    ∀ t ∈ wtokens s, t ≠ [] ∧ ∀ c ∈ t, isWordChar c = true ∧ keepChar c = true := by
  intro n
  induction n with
  | zero =>
    intro s hlen _
    rw [List.eq_nil_of_length_eq_zero (Nat.le_zero.mp hlen), wtokens_nil]
    intro t ht
    cases ht
  | succ n ih =>
    intro s hlen hs
    cases s with
    | nil =>
      rw [wtokens_nil]
      intro t ht
      cases ht
    | cons c cs =>
      simp only [List.length_cons] at hlen
      by_cases hcw : isWordChar c = true
      · rw [wtokens_cons_word hcw]
        intro t ht
        rcases List.mem_cons.mp ht with rfl | ht'
        · refine ⟨by simp, ?_⟩
          intro d hd
          rcases List.mem_cons.mp hd with rfl | hd'
          · exact ⟨hcw, hs d (List.mem_cons_self _ _)⟩
          · exact ⟨List.mem_takeWhile_imp hd',
              hs d (List.mem_cons_of_mem _ ((List.takeWhile_sublist _).subset hd'))⟩
        · exact ih (cs.dropWhile isWordChar)
            (le_trans (List.Sublist.length_le (List.dropWhile_sublist _)) (by omega))
            (fun e he => hs e (List.mem_cons_of_mem _ ((List.dropWhile_sublist _).subset he)))
            t ht'
      · have hcw' : isWordChar c = false := by
          cases h2 : isWordChar c
          · rfl
          · exact absurd h2 hcw
        rw [wtokens_cons_not_word hcw']
        exact ih cs (by omega) (fun e he => hs e (List.mem_cons_of_mem _ he))

theorem depunct_keep (x : List Char) : ∀ c ∈ depunct x, keepChar c = true := by
  intro c hc
  obtain ⟨d, _hd, he⟩ := List.mem_map.mp hc
  by_cases hk : keepChar d = true
  · rw [if_pos hk] at he
    rw [← he]
    exact hk
  · rw [if_neg hk] at he
    rw [← he]
    decide

theorem depunct_id {x : List Char} (hx : ∀ c ∈ x, keepChar c = true) : depunct x = x := by
  induction x with
  | nil => rfl
  | cons c cs ih =>
    show (if keepChar c then c else ' ') :: depunct cs = c :: cs
    rw [if_pos (hx c (List.mem_cons_self _ _)),
      ih (fun d hd => hx d (List.mem_cons_of_mem _ hd))]

theorem pyLower_keep_id {x : List Char} (hx : ∀ c ∈ x, keepChar c = true) :
    pyLower x = x := by
  induction x with
  | nil => rfl
  | cons c cs ih =>
    show pyLowerChar c :: cs.map pyLowerChar = c :: cs
    rw [pyLowerChar_keep (hx c (List.mem_cons_self _ _))]
    exact congrArg (c :: ·) (ih (fun d hd => hx d (List.mem_cons_of_mem _ hd)))

theorem joinTokens_chars {ts : List (List Char)}
    (h : ∀ t ∈ ts, ∀ c ∈ t, keepChar c = true) :
    ∀ c ∈ joinTokens ts, keepChar c = true := by
  induction ts with
  | nil =>
    intro c hc
    cases hc
  | cons t ts' ih =>
    cases ts' with
    | nil => exact fun c hc => h t (List.mem_cons_self _ _) c hc
    | cons t'' ts'' =>
      intro c hc
      rw [show joinTokens (t :: t'' :: ts'') = t ++ ' ' :: joinTokens (t'' :: ts'') from rfl]
        at hc
      rcases List.mem_append.mp hc with hc1 | hc2
      · exact h t (List.mem_cons_self _ _) c hc1
      · rcases List.mem_cons.mp hc2 with rfl | hc3
        · decide
        · exact ih (fun u hu => h u (List.mem_cons_of_mem _ hu)) c hc3

theorem join_reverse_head : ∀ (ts : List (List Char)), ts ≠ [] →
    (∀ t ∈ ts, t ≠ [] ∧ ∀ c ∈ t, isWordChar c = true) →
    ∃ d l', (joinTokens ts).reverse = d :: l' ∧ isWordChar d = true := by
  intro ts
  induction ts with
  | nil =>
    intro h
    exact absurd rfl h
  | cons t ts' ih =>
    intro _ hcanon
    cases ts' with
    | nil =>
      have ht := hcanon t (List.mem_cons_self _ _)
      obtain ⟨d, l', hd⟩ := List.exists_cons_of_ne_nil
        (show t.reverse ≠ [] from by simp [ht.1])
      exact ⟨d, l', by rw [show joinTokens [t] = t from rfl]; exact hd,
        ht.2 d (List.mem_reverse.mp (hd ▸ List.mem_cons_self _ _))⟩
    | cons t'' ts'' =>
      obtain ⟨d, l', hd, hdw⟩ := ih (by simp) (fun u hu => hcanon u (List.mem_cons_of_mem _ hu))
      refine ⟨d, l' ++ ' ' :: t.reverse, ?_, hdw⟩
      rw [show joinTokens (t :: t'' :: ts'') = t ++ ' ' :: joinTokens (t'' :: ts'') from rfl,
        List.reverse_append, List.reverse_cons, hd]
      simp [List.append_assoc]

theorem pyStrip_join_id {ts : List (List Char)}
    (h : ∀ t ∈ ts, t ≠ [] ∧ ∀ c ∈ t, isWordChar c = true) :
    pyStrip (joinTokens ts) = joinTokens ts := by
  cases ts with
  | nil => rfl
  | cons t ts' =>
    have ht := h t (List.mem_cons_self _ _)
    cases ts' with
    | nil =>
      have h2 := pyStrip_word_append (z := []) ht.1 ht.2
      rw [List.append_nil] at h2
      rw [show joinTokens [t] = t from rfl, h2]
      simp
    | cons t'' ts'' =>
      rw [show joinTokens (t :: t'' :: ts'') = t ++ ' ' :: joinTokens (t'' :: ts'') from rfl,
        pyStrip_word_append ht.1 ht.2]
      obtain ⟨d, l', hd, hdw⟩ := join_reverse_head (t'' :: ts'') (by simp)
        (fun u hu => h u (List.mem_cons_of_mem _ hu))
      rw [List.reverse_cons, hd,
        show (d :: l') ++ [' '] = d :: (l' ++ [' ']) from rfl,
        List.dropWhile_cons, if_neg (by rw [word_not_space hdw]; simp),
        show d :: (l' ++ [' ']) = (d :: l') ++ [' '] from rfl, ← hd, ← List.reverse_cons,
        List.reverse_reverse]

/-! ### The suffix-removal fold -/

theorem stripPatterns_ok : ∀ w ∈ stripPatterns, w ≠ [] ∧ ∀ c ∈ w, isWordChar c = true := by
  decide

theorem removeWord_chars {w s : List Char} (hkeep : ∀ c ∈ s, keepChar c = true) :
    ∀ c ∈ removeWord w s, keepChar c = true := by
  cases w with
  | nil => exact hkeep
  | cons a as => exact rmWordAux_chars a as s.length false s le_rfl hkeep

theorem removeWord_tokens {w s : List Char} (hne : w ≠ [])
    (hword : ∀ c ∈ w, isWordChar c = true) (hkeep : ∀ c ∈ s, keepChar c = true) :
    wtokens (removeWord w s) = (wtokens s).filter (fun t => !(t == w)) := by
  cases w with
  | nil => exact absurd rfl hne
  | cons a as => exact rmWordAux_tokens hword s.length s le_rfl hkeep

theorem fold_removeWord : ∀ (ws : List (List Char)) (x : List Char),
    (∀ c ∈ x, keepChar c = true) →
    (∀ w ∈ ws, w ≠ [] ∧ ∀ c ∈ w, isWordChar c = true) →
    (∀ c ∈ List.foldl (fun acc w => removeWord w acc) x ws, keepChar c = true)
    ∧ (∀ w ∈ ws, w ∉ wtokens (List.foldl (fun acc w => removeWord w acc) x ws))
    ∧ (∀ t ∈ wtokens (List.foldl (fun acc w => removeWord w acc) x ws), t ∈ wtokens x) := by
  intro ws
  induction ws with
  | nil =>
    intro x hx _
    refine ⟨hx, by simp, fun t ht => ht⟩
  | cons w ws' ih =>
    intro x hx hws
    simp only [List.foldl_cons]
    have hw := hws w (List.mem_cons_self _ _)
    have hkeep' : ∀ c ∈ removeWord w x, keepChar c = true := removeWord_chars hx
    have htok' : wtokens (removeWord w x) = (wtokens x).filter (fun t => !(t == w)) :=
      removeWord_tokens hw.1 hw.2 hx
    have hih := ih (removeWord w x) hkeep' (fun w' hw' => hws w' (List.mem_cons_of_mem _ hw'))
    refine ⟨hih.1, ?_, ?_⟩
    · intro w' hw'
      rcases List.mem_cons.mp hw' with rfl | hmem
      · intro hcontra
        have h2 := hih.2.2 w' hcontra
        rw [htok'] at h2
        have h3 := (List.mem_filter.mp h2).2
        simp at h3
      · exact hih.2.1 w' hmem
    · intro t ht
      have h2 := hih.2.2 t ht
      rw [htok'] at h2
      exact (List.mem_filter.mp h2).1

theorem fold_removeWord_stable : ∀ (ws : List (List Char)) (x : List Char),
    (∀ c ∈ x, keepChar c = true) →
    (∀ w ∈ ws, w ≠ [] ∧ ∀ c ∈ w, isWordChar c = true) →
    (∀ w ∈ ws, w ∉ wtokens x) →
    wtokens (List.foldl (fun acc w => removeWord w acc) x ws) = wtokens x
    ∧ (∀ c ∈ List.foldl (fun acc w => removeWord w acc) x ws, keepChar c = true) := by
  intro ws
  induction ws with
  | nil =>
    intro x hx _ _
    exact ⟨rfl, hx⟩
  | cons w ws' ih =>
    intro x hx hws hnin
    simp only [List.foldl_cons]
    have hw := hws w (List.mem_cons_self _ _)
    have heq : wtokens (removeWord w x) = wtokens x := by
      rw [removeWord_tokens hw.1 hw.2 hx]
      apply List.filter_eq_self.mpr
      intro t ht
      have hne : t ≠ w := fun h => (hnin w (List.mem_cons_self _ _)) (h ▸ ht)
      show (!(t == w)) = true
      rw [beq_eq_false_iff_ne.mpr hne]
      rfl
    have hih := ih (removeWord w x) (removeWord_chars hx)
      (fun w' hw' => hws w' (List.mem_cons_of_mem _ hw'))
      (fun w' hw' => by rw [heq]; exact hnin w' (List.mem_cons_of_mem _ hw'))
    exact ⟨hih.1.trans heq, hih.2⟩

/-- Every normalise_name output is a list of nonempty word-character tokens
joined by single spaces, and none of the tokens is a corporate-suffix word. -/
theorem normalise_canonical (s : List Char) :
    ∃ ts : List (List Char),
      normalise_name s = joinTokens ts
      ∧ (∀ t ∈ ts, t ≠ [] ∧ ∀ c ∈ t, isWordChar c = true ∧ keepChar c = true)
      ∧ (∀ w ∈ stripPatterns, w ∉ ts) := by
  have hx2 : ∀ c ∈ depunct (pyStrip (pyLower s)), keepChar c = true := depunct_keep _
  have hfold := fold_removeWord stripPatterns (depunct (pyStrip (pyLower s))) hx2
    stripPatterns_ok
  refine ⟨wtokens (List.foldl (fun acc w => removeWord w acc)
    (depunct (pyStrip (pyLower s))) stripPatterns), ?_, ?_, ?_⟩
  · unfold normalise_name
    exact strip_collapse _ _ le_rfl hfold.1
  · exact wtokens_shape _ _ le_rfl hfold.1
  · exact hfold.2.1

/-! ## Claim C10 -/

/-- Claim C10 confirmed: normalise_name is idempotent — its output (a
lowercase, punctuation-free, suffix-free, whitespace-collapsed, trimmed token
string) is a fixed point — and a non-string input yields the empty string. -/
theorem c10_normalise_idempotent :
    (∀ s : List Char, normalise_name (normalise_name s) = normalise_name s)
    ∧ normalise_name_py PyVal.other = [] := by
  refine ⟨?_, rfl⟩
  intro s
  obtain ⟨ts, hout, hcanon, hnot⟩ := normalise_canonical s
  rw [hout]
  have hch : ∀ c ∈ joinTokens ts, keepChar c = true :=
    joinTokens_chars (fun t ht c hc => ((hcanon t ht).2 c hc).2)
  have hword : ∀ t ∈ ts, t ≠ [] ∧ ∀ c ∈ t, isWordChar c = true :=
    fun t ht => ⟨(hcanon t ht).1, fun c hc => ((hcanon t ht).2 c hc).1⟩
  have hwt : wtokens (joinTokens ts) = ts := wtokens_join hword
  have hstable := fold_removeWord_stable stripPatterns (joinTokens ts) hch stripPatterns_ok
    (fun w hw => by rw [hwt]; exact hnot w hw)
  unfold normalise_name
  rw [pyLower_keep_id hch, pyStrip_join_id hword, depunct_id hch,
    strip_collapse _ _ le_rfl hstable.2, hstable.1, hwt]

/-! ## Claim C4 -/

/-- Claim C4 is falsified: for the query 'A B' against an index containing
the raw name 'A B', the normalized strings coincide ('a b'), yet find_matches
returns [] — both tokens have length 1, so the token set is empty and the
empty-token early return fires before the exact-match scan. -/
theorem c4_exact_match_counterexample :
    (∃ e ∈ mkEntries [(0, ['A', ' ', 'B'])], e.norm = normalise_name ['A', ' ', 'B'])
    ∧ find_matches (mkEntries [(0, ['A', ' ', 'B'])]) ['A', ' ', 'B'] (11/20) 5 = [] := by
  constructor
  · refine ⟨⟨0, ['A', ' ', 'B'], normalise_name ['A', ' ', 'B'],
      tokenise (normalise_name ['A', ' ', 'B'])⟩, ?_, rfl⟩
    simp [mkEntries]
  · simp [find_matches, mkEntries, normalise_name, pyLower, pyLowerChar, pyStrip, depunct,
      keepChar, isLowerAlpha, isDigitChar, isSpaceChar, stripPatterns, removeWord, rmWordAux,
      collapseWs, isWordChar, boundaryAfter, List.isPrefixOf, List.dropWhile, List.takeWhile,
      tokenise, splitWs]

/-- Claim C4 as amended: when the query's token set is empty, find_matches
returns [] even if an indexed entry's normalized string equals the query's;
when the token set is nonempty and such an entry exists, find_matches
returns exactly the first such entry as a single candidate with score 1.0,
for every topK and threshold. -/
theorem c4_exact_short_circuit_amended :
    (∀ (entries : List Entry) (q : List Char) (θ : ℚ) (k : ℕ),
      tokenise (normalise_name q) = [] → find_matches entries q θ k = [])
    ∧ (∀ (entries : List Entry) (q : List Char) (θ : ℚ) (k : ℕ),
      tokenise (normalise_name q) ≠ [] →
      (∃ e ∈ entries, e.norm = normalise_name q) →
      ∃ e ∈ entries, e.norm = normalise_name q ∧
        find_matches entries q θ k = [(e.eid, e.raw, 1)]) := by
  constructor
  · intro entries q θ k h
    simp [find_matches, h]
  · intro entries q θ k hqt hex
    obtain ⟨e, he, hnorm⟩ := hex
    have hfind : (entries.find? (fun x => x.norm == normalise_name q)).isSome := by
      rw [List.find?_isSome]
      exact ⟨e, he, by simp [hnorm]⟩
    obtain ⟨e', he'⟩ := Option.isSome_iff_exists.mp hfind
    have hmem := List.mem_of_find?_eq_some he'
    have hnorm' : e'.norm = normalise_name q := by
      have hp := List.find?_some he'
      simpa using hp
    refine ⟨e', hmem, hnorm', ?_⟩
    unfold find_matches
    rw [if_neg (by simpa using hqt), he']

theorem c4_exact_short_circuit_witness :
    find_matches (mkEntries [(0, ['a', 'b'])]) ['a', 'b'] (11/20) 5 = [(0, ['a', 'b'], 1)] := by
  obtain ⟨e, he, -, hres⟩ := c4_exact_short_circuit_amended.2 (mkEntries [(0, ['a', 'b'])])
    ['a', 'b'] (11/20) 5
    (by simp [normalise_name, pyLower, pyLowerChar, pyStrip, depunct, keepChar, isLowerAlpha,
      isDigitChar, isSpaceChar, stripPatterns, removeWord, rmWordAux, collapseWs, isWordChar,
      boundaryAfter, List.isPrefixOf, List.dropWhile, List.takeWhile, tokenise, splitWs])
    ⟨⟨0, ['a', 'b'], normalise_name ['a', 'b'], tokenise (normalise_name ['a', 'b'])⟩,
      by simp [mkEntries], rfl⟩
  simp only [mkEntries, List.map_cons, List.map_nil, List.mem_singleton] at he
  rw [hres, he]

end STREAM
